/-
Verification of the Minesweeper field engine (`src/mines.rs`).

The engine is shallowly embedded: the `ndarray` 2-D grids become flat
row-major `List`s together with the stored dimension pair `dim`, and every
grid access goes through the same per-axis bounds check that `ndarray`'s
`get` performs.  The process-wide random generator is made explicit: the
constructor takes the list of sampled mine indices, and the field carries
the stream `rng` of raw draws consumed by mine relocation (`move_mine`).
The recursive reveal procedure is embedded with an explicit fuel counter
(`revealGo`); the public `reveal` supplies ample fuel.  Rust panics
(`unwrap` / `expect`) and the potentially non-terminating retry loop of
`move_mine` are modelled as `Except.error` values that `reveal` surfaces
as a `MoveResult.err` distinct from the out-of-bounds error.
-/
import Mathlib

set_option maxHeartbeats 1000000

namespace Mines

/-- `Point` from `src/point.rs`: a grid position (row `i`, column `j`). -/
structure Point where
  i : Nat
  j : Nat
deriving Repr, DecidableEq

/-- `SquareView` from `src/mines.rs`: what the player sees at one square. -/
inductive SquareView where
  | hidden
  | flag
  | revealed (n : Nat)
  | mine
deriving Repr, DecidableEq

/-- `MoveResult` from `src/mines.rs`: result of `reveal` / `toggle_flag`. -/
inductive MoveResult where
  | lose
  | win
  | ok
  | err (s : String)
deriving Repr, DecidableEq

/-- Number of `true` entries of a boolean list (the sums `x as u32` that the
Rust code takes over `ndarray` grids). -/
def nTrue : List Bool → Nat
  | [] => 0
  | b :: t => (if b then 1 else 0) + nTrue t

/-- The `MineField` struct: the four parallel grids are flat row-major lists,
`dim = (height, width)`, and `rng` is the explicit stream of random draws
remaining for mine relocation. -/
structure MineField where
  mines : List Bool
  neighbors : List Nat
  revealed : List Bool
  flagged : List Bool
  n_revealed : Nat
  dim : Nat × Nat
  rng : List Nat
deriving Repr, DecidableEq

namespace MineField

/-- Flat row-major index of a point. -/
def fidx (f : MineField) (p : Point) : Nat := p.i * f.dim.2 + p.j

/-- In-bounds test against the stored dimensions (the per-axis check made by
`ndarray`'s `get`). -/
def inB (f : MineField) (p : Point) : Prop := p.i < f.dim.1 ∧ p.j < f.dim.2

instance (f : MineField) (p : Point) : Decidable (inB f p) := by
  unfold inB; infer_instance

/-- `peek_mine`: bounds-checked mine lookup. -/
def peek_mine (f : MineField) (p : Point) : Option Bool :=
  if inB f p then some (f.mines.getD (f.fidx p) false) else none

/-- `is_revealed`: bounds-checked revealed lookup. -/
def is_revealed (f : MineField) (p : Point) : Option Bool :=
  if inB f p then some (f.revealed.getD (f.fidx p) false) else none

/-- `is_flag`: bounds-checked flag lookup. -/
def is_flag (f : MineField) (p : Point) : Option Bool :=
  if inB f p then some (f.flagged.getD (f.fidx p) false) else none

/-- `neighbors_iter`: the in-bounds 8-connected (Moore) neighbours of `p`,
produced in the same row-major order as the Rust nested ranges
`(imin..=imax) × (jmin..=jmax)` minus `p` itself. -/
def neighbors_iter (f : MineField) (p : Point) : List Point :=
  let imin := max p.i 1 - 1
  let jmin := max p.j 1 - 1
  let imax := min (p.i + 1) (f.dim.1 - 1)
  let jmax := min (p.j + 1) (f.dim.2 - 1)
  (List.range' imin (imax + 1 - imin)).flatMap (fun i =>
    (List.range' jmin (jmax + 1 - jmin)).filterMap (fun j =>
      if p.i = i ∧ p.j = j then none else some ⟨i, j⟩))

/-- `view_sq`: the player-visible view of one square (`None` when out of
bounds).  The unwrap on the neighbour count is sound because the three
lookups already certified that `p` is in bounds. -/
def view_sq (f : MineField) (p : Point) : Option SquareView :=
  match f.is_revealed p, f.peek_mine p, f.is_flag p with
  | some rev, some ismine, some isflag =>
    some (match rev, ismine, isflag with
      | false, _, false => SquareView.hidden
      | false, _, true => SquareView.flag
      | true, false, _ => SquareView.revealed (f.neighbors.getD (f.fidx p) 0)
      | true, true, _ => SquareView.mine)
  | _, _, _ => none

/-- `game_won`: the O(1) win test `n_revealed == n_squares - n_mines`. -/
def game_won (f : MineField) : Bool :=
  f.n_revealed = f.mines.length - nTrue f.mines

/-- `reveal_all_mines`: set `revealed` on every mine square, leaving
non-mines (and the counter `n_revealed`) untouched. -/
def reveal_all_mines (f : MineField) : MineField :=
  { f with revealed := List.zipWith (fun r m => r || m) f.revealed f.mines }

end MineField

/-- The zero-padded shadow grid built inside `n_neighbors_grid`: entry
`(i, j)` of the `(h+2) × (w+2)` array `mines_pad` as a function
(`1` where the shifted copy of `mines` holds a mine, `0` on the border
padding and on non-mine squares). -/
def minesPad (h w : Nat) (mines : List Bool) (i j : Nat) : Nat :=
  if 1 ≤ i ∧ i ≤ h ∧ 1 ≤ j ∧ j ≤ w ∧ mines.getD ((i - 1) * w + (j - 1)) false
  then 1 else 0

/-- `n_neighbors_grid`: for every square, the sum of the eight shifted
slices of the padded grid — output `(i, j)` adds `mines_pad` at
`(i+2, j+1)`, `(i, j+1)`, `(i+1, j+2)`, `(i+1, j)` (down/up/right/left)
and the four diagonals, exactly as the two `azip!` passes do. -/
def n_neighbors_grid (h w : Nat) (mines : List Bool) : List Nat :=
  (List.range (h * w)).map (fun k =>
    let i := k / w
    let j := k % w
    (minesPad h w mines (i + 2) (j + 1) + minesPad h w mines i (j + 1) +
      minesPad h w mines (i + 1) (j + 2) + minesPad h w mines (i + 1) j) +
    (minesPad h w mines (i + 2) (j + 2) + minesPad h w mines i (j + 2) +
      minesPad h w mines (i + 2) j + minesPad h w mines i j))

namespace MineField

/-- `with_n_mines`: build a field from the list of sampled mine indices
(the uniform sample without replacement drawn by `rand::seq::index::sample`)
and an initial relocation stream.  The `assert!` preconditions
(`height, width > 0`, `n_mines < n_cells`) become hypotheses of the
theorems below; each index `ix` is placed at `(ix / width, ix % width)`. -/
def with_n_mines (height width : Nat) (mine_ixs : List Nat) (rng : List Nat) :
    MineField :=
  let n_cells := height * width
  let mines := mine_ixs.foldl
    (fun m ix => m.set ((ix / width) * width + ix % width) true)
    (List.replicate n_cells false)
  { mines := mines
    neighbors := n_neighbors_grid height width mines
    revealed := List.replicate n_cells false
    flagged := List.replicate n_cells false
    n_revealed := 0
    dim := (height, width)
    rng := rng }

/-- The retry loop of `move_mine`: draw squares from the stream (a raw draw
`c` denotes the slot `c % len` chosen by `choose_mut`) until one is not a
mine; return the chosen slot and the unconsumed rest of the stream. -/
def pick_non_mine (mines : List Bool) : List Nat → Option (Nat × List Nat)
  | [] => none
  | c :: rest =>
    let t := c % mines.length
    if mines.getD t false then pick_non_mine mines rest else some (t, rest)

/-- `move_mine`: relocate the mine at `p` to a randomly chosen non-mine
square, then recompute the whole neighbour-count grid.  `Except.error`
covers the `Err("not a mine")` result as well as the panics / the
never-succeeding retry loop, none of which are reachable from `reveal`'s
call site on a well-formed field. -/
def move_mine (f : MineField) (p : Point) : Except String MineField :=
  match f.peek_mine p with
  | none => Except.error "index OOB panic"
  | some false => Except.error "not a mine"
  | some true =>
    if f.mines.length = 0 then Except.error "mines is empty" else
    match pick_non_mine f.mines f.rng with
    | none => Except.error "rng exhausted"
    | some (t, rest) =>
      let m1 := f.mines.set t true
      let m2 := m1.set (f.fidx p) false
      Except.ok { f with
        mines := m2
        neighbors := n_neighbors_grid f.dim.1 f.dim.2 m2
        rng := rest }

/-- Mark a hidden square revealed and bump the counter (the `Hidden` arm of
`reveal`'s match). -/
def mark_revealed (f : MineField) (p : Point) : MineField :=
  { f with revealed := f.revealed.set (f.fidx p) true
           n_revealed := f.n_revealed + 1 }

/-- One iteration of the `reveal_neighbors` loop, with the `break` on a
non-`Ok` result emulated by skipping every later neighbour.  The loop's
`is_revealed(..).unwrap()` is modelled by the defaulted lookup: the
neighbour list only ever holds in-bounds points, so the unwrap panic is
unreachable. -/
def reveal_step (rv : MineField → Point → MineField × MoveResult)
    (acc : MineField × MoveResult) (q : Point) : MineField × MoveResult :=
  if acc.2 = MoveResult.ok then
    if acc.1.revealed.getD (acc.1.fidx q) false then acc else rv acc.1 q
  else acc

/-- `reveal_neighbors`: fold the loop body over the neighbour list, starting
from `res = Ok`; `rv` is the recursive `reveal` being invoked on each
unrevealed neighbour. -/
def reveal_neighbors (rv : MineField → Point → MineField × MoveResult)
    (f : MineField) (p : Point) : MineField × MoveResult :=
  (f.neighbors_iter p).foldl (reveal_step rv) (f, MoveResult.ok)

/-- `chord`: when the number of flagged neighbours equals the stored
neighbour-mine count, reveal the remaining neighbours; otherwise do
nothing. -/
def chord (rv : MineField → Point → MineField × MoveResult)
    (f : MineField) (p : Point) : MineField × MoveResult :=
  let nn_mines := f.neighbors.getD (f.fidx p) 0
  let nn_flags := ((f.neighbors_iter p).map
    (fun q => if f.flagged.getD (f.fidx q) false then 1 else 0)).sum
  if nn_mines = nn_flags then reveal_neighbors rv f p
  else (f, MoveResult.ok)

/-- The final win test of `reveal`: if the game is won, reveal every mine
and return `Win`, otherwise return `Ok`. -/
def win_check (f : MineField) : MineField × MoveResult :=
  if f.game_won then (f.reveal_all_mines, MoveResult.win)
  else (f, MoveResult.ok)

/-- Tail of `reveal` shared by the `Hidden` and `Mine` arms: flood the
neighbours when the stored count is zero (the loop's result is discarded,
as in the source), then test the win condition. -/
def reveal_tail (rv : MineField → Point → MineField × MoveResult)
    (f : MineField) (p : Point) : MineField × MoveResult :=
  if f.neighbors.getD (f.fidx p) 0 = 0 then
    win_check (reveal_neighbors rv f p).1
  else win_check f

/-- Middle of `reveal` shared by the `Hidden` and `Mine` arms: the
mine-hit check, with first-move relocation (`n_revealed == 1`) and the
losing sweep. -/
def mine_check (rv : MineField → Point → MineField × MoveResult)
    (f : MineField) (p : Point) : MineField × MoveResult :=
  if f.mines.getD (f.fidx p) false then
    if f.n_revealed = 1 then
      match f.move_mine p with
      | Except.ok f2 => reveal_tail rv f2 p
      | Except.error e => (f, MoveResult.err e)
    else (f.reveal_all_mines, MoveResult.lose)
  else reveal_tail rv f p

/-- `reveal`, with explicit recursion fuel.  The view match: out of bounds
gives `Err`, a flag absorbs the move, an already-revealed non-mine square
chords, a hidden square is marked revealed, and a revealed mine falls
through the wildcard arm unmarked; then the mine check and the shared
tail run. -/
def revealGo : Nat → MineField → Point → MineField × MoveResult
  | 0, f, _ => (f, MoveResult.err "recursion limit")
  | fuel + 1, f, p =>
    match f.view_sq p with
    | none => (f, MoveResult.err "index OOB")
    | some SquareView.flag => (f, MoveResult.ok)
    | some (SquareView.revealed _) => chord (revealGo fuel) f p
    | some SquareView.hidden => mine_check (revealGo fuel) (f.mark_revealed p) p
    | some SquareView.mine => mine_check (revealGo fuel) f p

/-- The public `reveal`: ample fuel for the bounded recursion (each nested
call below the top one first reveals a fresh square, so the nesting depth
never exceeds `n_cells + 2`). -/
def reveal (f : MineField) (p : Point) : MineField × MoveResult :=
  revealGo (f.dim.1 * f.dim.2 + 3) f p

/-- `toggle_flag`: a no-op on revealed squares, an error out of bounds,
otherwise flip the flag bit. -/
def toggle_flag (f : MineField) (p : Point) : MineField × MoveResult :=
  if f.is_revealed p = some true then (f, MoveResult.ok)
  else
    match f.is_flag p with
    | some fl =>
      ({ f with flagged := f.flagged.set (f.fidx p) (!fl) }, MoveResult.ok)
    | none => (f, MoveResult.err "index OOB")

end MineField

/-! ## Specification-side predicates -/

/-- Well-formedness: positive dimensions and all four grids of size
`height * width` (what `ndarray` guarantees for the arrays the constructors
build). -/
def WF (f : MineField) : Prop :=
  0 < f.dim.1 ∧ 0 < f.dim.2 ∧
  f.mines.length = f.dim.1 * f.dim.2 ∧
  f.neighbors.length = f.dim.1 * f.dim.2 ∧
  f.revealed.length = f.dim.1 * f.dim.2 ∧
  f.flagged.length = f.dim.1 * f.dim.2

instance (f : MineField) : Decidable (WF f) := by unfold WF; infer_instance

/-- The stored neighbour grid is the one `n_neighbors_grid` computes from
the current mines. -/
def coherent (f : MineField) : Prop :=
  f.neighbors = n_neighbors_grid f.dim.1 f.dim.2 f.mines

instance (f : MineField) : Decidable (coherent f) := by
  unfold coherent; infer_instance

/-- The scalar `n_revealed` equals the number of cells with the revealed
bit set. -/
def counter_ok (f : MineField) : Prop := f.n_revealed = nTrue f.revealed

instance (f : MineField) : Decidable (counter_ok f) := by
  unfold counter_ok; infer_instance

/-- No cell is simultaneously revealed and flagged. -/
def excl_ok (f : MineField) : Prop :=
  ∀ k, k < f.revealed.length → f.revealed.getD k false = true →
    f.flagged.getD k false = false

instance (f : MineField) : Decidable (excl_ok f) := by
  unfold excl_ok; infer_instance

/-- Every mine cell has its revealed bit set. -/
def all_mines_revealed (f : MineField) : Prop :=
  ∀ k, k < f.mines.length → f.mines.getD k false = true →
    f.revealed.getD k false = true

instance (f : MineField) : Decidable (all_mines_revealed f) := by
  unfold all_mines_revealed; infer_instance

/-- The structural invariant preserved by every operation. -/
def Inv (f : MineField) : Prop := WF f ∧ coherent f

/-- The full invariant of non-terminal play: structure, counter, and
revealed/flagged exclusivity. -/
def GoodState (f : MineField) : Prop := Inv f ∧ counter_ok f ∧ excl_ok f

instance (f : MineField) : Decidable (Inv f) := by unfold Inv; infer_instance

instance (f : MineField) : Decidable (GoodState f) := by
  unfold GoodState; infer_instance

/-- Specification-side neighbour-mine count: for cell `(i, j)`, sum
`is_mine` over its up-to-8 orthogonal and diagonal neighbours, treating
out-of-grid neighbours as absent.  The eight addends are the neighbours
below, above, right, left, then the four diagonals, each guarded by its
full in-grid condition. -/
def moore_mine_count (h w : Nat) (mines : List Bool) (i j : Nat) : Nat :=
  ((if i + 1 < h ∧ j < w ∧ mines.getD ((i + 1) * w + j) false = true
    then 1 else 0) +
   (if 1 ≤ i ∧ i - 1 < h ∧ j < w ∧ mines.getD ((i - 1) * w + j) false = true
    then 1 else 0) +
   (if i < h ∧ j + 1 < w ∧ mines.getD (i * w + (j + 1)) false = true
    then 1 else 0) +
   (if i < h ∧ 1 ≤ j ∧ j - 1 < w ∧ mines.getD (i * w + (j - 1)) false = true
    then 1 else 0)) +
  ((if i + 1 < h ∧ j + 1 < w ∧ mines.getD ((i + 1) * w + (j + 1)) false = true
    then 1 else 0) +
   (if 1 ≤ i ∧ i - 1 < h ∧ j + 1 < w ∧
      mines.getD ((i - 1) * w + (j + 1)) false = true then 1 else 0) +
   (if i + 1 < h ∧ 1 ≤ j ∧ j - 1 < w ∧
      mines.getD ((i + 1) * w + (j - 1)) false = true then 1 else 0) +
   (if 1 ≤ i ∧ i - 1 < h ∧ 1 ≤ j ∧ j - 1 < w ∧
      mines.getD ((i - 1) * w + (j - 1)) false = true then 1 else 0))

/-! ## List helper lemmas -/

theorem getD_set_self {α : Type} (l : List α) (i : Nat) (b d : α)
    (h : i < l.length) : (l.set i b).getD i d = b := by
  simp [List.getD_eq_getElem?_getD, List.getElem?_set_self' , h]

theorem getD_set_ne {α : Type} (l : List α) {i j : Nat} (b d : α)
    (h : i ≠ j) : (l.set i b).getD j d = l.getD j d := by
  simp [List.getD_eq_getElem?_getD, List.getElem?_set_ne h]

theorem set_getD_self {α : Type} (l : List α) (i : Nat) (d : α)
    (h : i < l.length) : l.set i (l.getD i d) = l := by
  apply List.ext_getElem?
  intro n
  rcases eq_or_ne i n with rfl | hne
  · simp [List.getElem?_set_self' , h, List.getD_eq_getElem?_getD,
      List.getElem?_eq_getElem h]
  · simp [List.getElem?_set_ne hne]

theorem getD_replicate {α : Type} (n k : Nat) (a d : α) :
    (List.replicate n a).getD k d = if k < n then a else d := by
  simp [List.getD_eq_getElem?_getD, List.getElem?_replicate]
  split <;> rfl

theorem getD_true_lt (l : List Bool) (k : Nat)
    (h : l.getD k false = true) : k < l.length := by
  by_contra hk
  rw [List.getD_eq_getElem?_getD, List.getElem?_eq_none (by omega)] at h
  simp at h

theorem nTrue_le_length (l : List Bool) : nTrue l ≤ l.length := by
  induction l with
  | nil => simp [nTrue]
  | cons b t ih => simp [nTrue]; split <;> omega

theorem nTrue_replicate (n : Nat) : nTrue (List.replicate n false) = 0 := by
  induction n with
  | zero => rfl
  | succ m ih => simp [List.replicate, nTrue, ih]

theorem nTrue_set_true (l : List Bool) (k : Nat) (hk : k < l.length)
    (h : l.getD k false = false) : nTrue (l.set k true) = nTrue l + 1 := by
  induction l generalizing k with
  | nil => simp at hk
  | cons b t ih =>
    cases k with
    | zero =>
      rw [List.getD_cons_zero] at h
      simp [List.set, nTrue, h]
      omega
    | succ m =>
      simp at hk
      rw [List.getD_cons_succ] at h
      simp [List.set, nTrue, ih m hk h]
      omega

theorem nTrue_set_false (l : List Bool) (k : Nat)
    (h : l.getD k false = true) : nTrue l = nTrue (l.set k false) + 1 := by
  induction l generalizing k with
  | nil => simp [List.getD] at h
  | cons b t ih =>
    cases k with
    | zero =>
      rw [List.getD_cons_zero] at h
      simp [List.set, nTrue, h]
      omega
    | succ m =>
      rw [List.getD_cons_succ] at h
      simp [List.set, nTrue]
      have := ih m h
      omega

theorem nTrue_pos (l : List Bool) (k : Nat)
    (h : l.getD k false = true) : 0 < nTrue l := by
  induction l generalizing k with
  | nil => simp [List.getD] at h
  | cons b t ih =>
    cases k with
    | zero =>
      rw [List.getD_cons_zero] at h
      simp [nTrue, h]
    | succ m =>
      rw [List.getD_cons_succ] at h
      have := ih m h
      simp [nTrue]
      omega

theorem length_foldl_set (ixs : List Nat) (init : List Bool) :
    (ixs.foldl (fun m ix => m.set ix true) init).length = init.length := by
  induction ixs generalizing init with
  | nil => rfl
  | cons ix t ih => simp [List.foldl_cons, ih, List.length_set]

theorem nTrue_foldl_set (ixs : List Nat) (init : List Bool)
    (hnd : ixs.Nodup)
    (hin : ∀ ix ∈ ixs, ix < init.length ∧ init.getD ix false = false) :
    nTrue (ixs.foldl (fun m ix => m.set ix true) init) =
      nTrue init + ixs.length := by
  induction ixs generalizing init with
  | nil => rfl
  | cons ix t ih =>
    simp only [List.foldl_cons]
    obtain ⟨hlt, hfalse⟩ := hin ix (by simp)
    rw [List.nodup_cons] at hnd
    rw [ih (init.set ix true) hnd.2 ?_]
    · rw [nTrue_set_true init ix hlt hfalse]; simp; omega
    · intro ix' hix'
      refine ⟨by simp [List.length_set]; exact (hin ix' (by simp [hix'])).1, ?_⟩
      rw [getD_set_ne init true false (by intro he; exact hnd.1 (by rwa [he]))]
      exact (hin ix' (by simp [hix'])).2

theorem fidx_lt {h w i j : Nat} (hi : i < h) (hj : j < w) :
    i * w + j < h * w := by
  calc i * w + j < i * w + w := by omega
  _ = (i + 1) * w := by ring
  _ ≤ h * w := Nat.mul_le_mul_right w hi

theorem getD_map_range (g : Nat → Nat) (n k : Nat) (hk : k < n) :
    ((List.range n).map g).getD k 0 = g k := by
  simp [List.getD_eq_getElem?_getD, List.getElem?_map, List.getElem?_range hk]

/-! ## Correctness of the padded-grid neighbour count -/

theorem ite_one_zero_congr {P Q : Prop} [Decidable P] [Decidable Q]
    (h : P ↔ Q) : (if P then (1 : Nat) else 0) = if Q then 1 else 0 :=
  if_congr h rfl rfl

/-- The eight shifted padded-grid slices compute exactly the number of mine
cells among the in-bounds Moore neighbours. -/
theorem n_neighbors_grid_correct (h w : Nat) (mines : List Bool) (i j : Nat)
    (hi : i < h) (hj : j < w) :
    (n_neighbors_grid h w mines).getD (i * w + j) 0 =
      moore_mine_count h w mines i j := by
  have hw : 0 < w := by omega
  have hk : i * w + j < h * w := fidx_lt hi hj
  unfold n_neighbors_grid
  rw [getD_map_range _ _ _ hk]
  have hcomm : i * w + j = j + w * i := by ring
  have hdiv : (i * w + j) / w = i := by
    rw [hcomm, Nat.add_mul_div_left _ _ hw, Nat.div_eq_of_lt hj]; omega
  have hmod : (i * w + j) % w = j := by
    rw [hcomm, Nat.add_mul_mod_self_left, Nat.mod_eq_of_lt hj]
  simp only [hdiv, hmod, moore_mine_count, minesPad]
  simp only [show i + 2 - 1 = i + 1 from rfl, show j + 2 - 1 = j + 1 from rfl,
    show j + 1 - 1 = j from rfl, show i + 1 - 1 = i from rfl]
  congr 1
  · congr 1
    · congr 1
      · congr 1
        · -- down
          refine ite_one_zero_congr ?_
          constructor
          · rintro ⟨h1, h2, h3, h4, h5⟩; exact ⟨by omega, by omega, h5⟩
          · rintro ⟨h1, h2, h5⟩; exact ⟨by omega, by omega, by omega, by omega, h5⟩
        · -- up
          refine ite_one_zero_congr ?_
          constructor
          · rintro ⟨h1, h2, h3, h4, h5⟩
            exact ⟨by omega, by omega, by omega, h5⟩
          · rintro ⟨h1, h2, h3, h5⟩
            exact ⟨by omega, by omega, by omega, by omega, h5⟩
      · -- right
        refine ite_one_zero_congr ?_
        constructor
        · rintro ⟨h1, h2, h3, h4, h5⟩; exact ⟨by omega, by omega, h5⟩
        · rintro ⟨h1, h2, h5⟩; exact ⟨by omega, by omega, by omega, by omega, h5⟩
    · -- left
      refine ite_one_zero_congr ?_
      constructor
      · rintro ⟨h1, h2, h3, h4, h5⟩; exact ⟨by omega, by omega, by omega, h5⟩
      · rintro ⟨h1, h2, h3, h5⟩
        exact ⟨by omega, by omega, by omega, by omega, h5⟩
  · congr 1
    · congr 1
      · congr 1
        · -- down-right
          refine ite_one_zero_congr ?_
          constructor
          · rintro ⟨h1, h2, h3, h4, h5⟩; exact ⟨by omega, by omega, h5⟩
          · rintro ⟨h1, h2, h5⟩; exact ⟨by omega, by omega, by omega, by omega, h5⟩
        · -- up-right
          refine ite_one_zero_congr ?_
          constructor
          · rintro ⟨h1, h2, h3, h4, h5⟩
            exact ⟨by omega, by omega, by omega, h5⟩
          · rintro ⟨h1, h2, h3, h5⟩
            exact ⟨by omega, by omega, by omega, by omega, h5⟩
      · -- down-left
        refine ite_one_zero_congr ?_
        constructor
        · rintro ⟨h1, h2, h3, h4, h5⟩; exact ⟨by omega, by omega, by omega, h5⟩
        · rintro ⟨h1, h2, h3, h5⟩
          exact ⟨by omega, by omega, by omega, by omega, h5⟩
    · -- up-left
      refine ite_one_zero_congr ?_
      constructor
      · rintro ⟨h1, h2, h3, h4, h5⟩
        exact ⟨by omega, by omega, by omega, by omega, h5⟩
      · rintro ⟨h1, h2, h3, h4, h5⟩
        exact ⟨by omega, by omega, by omega, by omega, h5⟩

/-- The Moore count is at most 8. -/
theorem moore_mine_count_le_eight (h w : Nat) (mines : List Bool)
    (i j : Nat) : moore_mine_count h w mines i j ≤ 8 := by
  unfold moore_mine_count
  split <;> split <;> split <;> split <;> split <;> split <;> split <;>
    split <;> omega

/-! ## The neighbour iterator -/

theorem mem_neighbors_iter (f : MineField) (p q : Point)
    (h1 : 0 < f.dim.1) (h2 : 0 < f.dim.2) (hp : f.inB p) :
    q ∈ f.neighbors_iter p ↔
      (¬(q.i = p.i ∧ q.j = p.j) ∧
       q.i ≤ p.i + 1 ∧ p.i ≤ q.i + 1 ∧ q.i < f.dim.1 ∧
       q.j ≤ p.j + 1 ∧ p.j ≤ q.j + 1 ∧ q.j < f.dim.2) := by
  obtain ⟨hpi, hpj⟩ := hp
  simp only [MineField.neighbors_iter, List.mem_flatMap, List.mem_filterMap,
    List.mem_range'_1]
  constructor
  · rintro ⟨a, ⟨ha1, ha2⟩, b, ⟨hb1, hb2⟩, hb⟩
    split at hb
    · exact absurd hb (by simp)
    · rename_i hne
      obtain ⟨e1, e2⟩ : a = q.i ∧ b = q.j := by
        cases q with
        | mk qi qj => simpa [Point.mk.injEq] using hb
      subst e1; subst e2
      refine ⟨?_, by omega, by omega, by omega, by omega, by omega, by omega⟩
      intro ⟨e1, e2⟩
      exact hne ⟨e1.symm, e2.symm⟩
  · rintro ⟨hne, hq1, hq2, hq3, hq4, hq5, hq6⟩
    refine ⟨q.i, ⟨by omega, by omega⟩, q.j, ⟨by omega, by omega⟩, ?_⟩
    rw [if_neg]
    · intro ⟨e1, e2⟩
      exact hne ⟨e1.symm, e2.symm⟩

theorem moore_zero_no_mine (h w : Nat) (mines : List Bool) (i j a b : Nat)
    (hmoore : moore_mine_count h w mines i j = 0)
    (hne : ¬(a = i ∧ b = j))
    (ha1 : a ≤ i + 1) (ha2 : i ≤ a + 1) (hah : a < h)
    (hb1 : b ≤ j + 1) (hb2 : j ≤ b + 1) (hbw : b < w) :
    mines.getD (a * w + b) false = false := by
  by_contra hmx
  have hm : mines.getD (a * w + b) false = true := by
    cases hx : mines.getD (a * w + b) false
    · exact absurd hx hmx
    · rfl
  unfold moore_mine_count at hmoore
  have hca : a + 1 = i ∨ a = i ∨ a = i + 1 := by omega
  have hcb : b + 1 = j ∨ b = j ∨ b = j + 1 := by omega
  rcases hca with hca | hca | hca
  · -- a = i - 1 : the "up" row
    rcases hcb with hcb | hcb | hcb
    · -- up-left
      subst hca; subst hcb
      rw [if_pos (show 1 ≤ a + 1 ∧ a + 1 - 1 < h ∧ 1 ≤ b + 1 ∧
          b + 1 - 1 < w ∧
          mines.getD ((a + 1 - 1) * w + (b + 1 - 1)) false = true from
        ⟨by omega, by omega, by omega, by omega, hm⟩)] at hmoore
      omega
    · -- up
      subst hca; subst hcb
      rw [if_pos (show 1 ≤ a + 1 ∧ a + 1 - 1 < h ∧ b < w ∧
          mines.getD ((a + 1 - 1) * w + b) false = true from
        ⟨by omega, by omega, by omega, hm⟩)] at hmoore
      omega
    · -- up-right
      subst hca; subst hcb
      rw [if_pos (show 1 ≤ a + 1 ∧ a + 1 - 1 < h ∧ j + 1 < w ∧
          mines.getD ((a + 1 - 1) * w + (j + 1)) false = true from
        ⟨by omega, by omega, by omega, hm⟩)] at hmoore
      omega
  · -- a = i : same row
    rcases hcb with hcb | hcb | hcb
    · -- left
      subst hca; subst hcb
      rw [if_pos (show a < h ∧ 1 ≤ b + 1 ∧ b + 1 - 1 < w ∧
          mines.getD (a * w + (b + 1 - 1)) false = true from
        ⟨by omega, by omega, by omega, hm⟩)] at hmoore
      omega
    · exact hne ⟨hca, hcb⟩
    · -- right
      subst hca; subst hcb
      rw [if_pos (show a < h ∧ j + 1 < w ∧
          mines.getD (a * w + (j + 1)) false = true from
        ⟨by omega, by omega, hm⟩)] at hmoore
      omega
  · -- a = i + 1 : the "down" row
    rcases hcb with hcb | hcb | hcb
    · -- down-left
      subst hca; subst hcb
      rw [if_pos (show i + 1 < h ∧ 1 ≤ b + 1 ∧ b + 1 - 1 < w ∧
          mines.getD ((i + 1) * w + (b + 1 - 1)) false = true from
        ⟨by omega, by omega, by omega, hm⟩)] at hmoore
      omega
    · -- down
      subst hca; subst hcb
      rw [if_pos (show i + 1 < h ∧ b < w ∧
          mines.getD ((i + 1) * w + b) false = true from
        ⟨by omega, by omega, hm⟩)] at hmoore
      omega
    · -- down-right
      subst hca; subst hcb
      rw [if_pos (show i + 1 < h ∧ j + 1 < w ∧
          mines.getD ((i + 1) * w + (j + 1)) false = true from
        ⟨by omega, by omega, hm⟩)] at hmoore
      omega

/-- When the stored neighbour count of an in-bounds cell is zero on a
coherent field, every Moore neighbour is in bounds and mine-free. -/
theorem flood_targets_not_mine (f : MineField) (p : Point)
    (hInv : Inv f) (hp : f.inB p)
    (hnn : f.neighbors.getD (f.fidx p) 0 = 0) :
    ∀ q ∈ f.neighbors_iter p,
      f.inB q ∧ f.mines.getD (f.fidx q) false = false := by
  obtain ⟨⟨hd1, hd2, _⟩, hco⟩ := hInv
  intro q hq
  rw [mem_neighbors_iter f p q hd1 hd2 hp] at hq
  obtain ⟨hne, h1, h2, h3, h4, h5, h6⟩ := hq
  refine ⟨⟨h3, h6⟩, ?_⟩
  rw [hco] at hnn
  rw [MineField.fidx] at hnn
  rw [n_neighbors_grid_correct _ _ _ _ _ hp.1 hp.2] at hnn
  exact moore_zero_no_mine f.dim.1 f.dim.2 f.mines p.i p.j q.i q.j hnn
    hne h1 h2 h3 h4 h5 h6

/-! ## Characterisations of `view_sq` -/

theorem view_sq_none_iff (f : MineField) (p : Point) :
    f.view_sq p = none ↔ ¬ f.inB p := by
  unfold MineField.view_sq MineField.is_revealed MineField.peek_mine
    MineField.is_flag
  by_cases hb : f.inB p
  · simp only [if_pos hb]
    cases f.revealed.getD (f.fidx p) false <;>
      cases f.mines.getD (f.fidx p) false <;>
      cases f.flagged.getD (f.fidx p) false <;> simp [hb]
  · simp [if_neg hb, hb]

theorem view_sq_hidden_iff (f : MineField) (p : Point) :
    f.view_sq p = some SquareView.hidden ↔
      f.inB p ∧ f.revealed.getD (f.fidx p) false = false ∧
        f.flagged.getD (f.fidx p) false = false := by
  unfold MineField.view_sq MineField.is_revealed MineField.peek_mine
    MineField.is_flag
  by_cases hb : f.inB p
  · simp only [if_pos hb]
    cases hr : f.revealed.getD (f.fidx p) false <;>
      cases hm : f.mines.getD (f.fidx p) false <;>
      cases hfl : f.flagged.getD (f.fidx p) false <;> simp [hb]
  · simp [if_neg hb, hb]

theorem view_sq_flag_iff (f : MineField) (p : Point) :
    f.view_sq p = some SquareView.flag ↔
      f.inB p ∧ f.revealed.getD (f.fidx p) false = false ∧
        f.flagged.getD (f.fidx p) false = true := by
  unfold MineField.view_sq MineField.is_revealed MineField.peek_mine
    MineField.is_flag
  by_cases hb : f.inB p
  · simp only [if_pos hb]
    cases hr : f.revealed.getD (f.fidx p) false <;>
      cases hm : f.mines.getD (f.fidx p) false <;>
      cases hfl : f.flagged.getD (f.fidx p) false <;> simp [hb]
  · simp [if_neg hb, hb]

theorem view_sq_mine_iff (f : MineField) (p : Point) :
    f.view_sq p = some SquareView.mine ↔
      f.inB p ∧ f.revealed.getD (f.fidx p) false = true ∧
        f.mines.getD (f.fidx p) false = true := by
  unfold MineField.view_sq MineField.is_revealed MineField.peek_mine
    MineField.is_flag
  by_cases hb : f.inB p
  · simp only [if_pos hb]
    cases hr : f.revealed.getD (f.fidx p) false <;>
      cases hm : f.mines.getD (f.fidx p) false <;>
      cases hfl : f.flagged.getD (f.fidx p) false <;> simp [hb]
  · simp [if_neg hb, hb]

theorem view_sq_revealed_iff (f : MineField) (p : Point) (n : Nat) :
    f.view_sq p = some (SquareView.revealed n) ↔
      f.inB p ∧ f.revealed.getD (f.fidx p) false = true ∧
        f.mines.getD (f.fidx p) false = false ∧
        n = f.neighbors.getD (f.fidx p) 0 := by
  unfold MineField.view_sq MineField.is_revealed MineField.peek_mine
    MineField.is_flag
  by_cases hb : f.inB p
  · simp only [if_pos hb]
    cases hr : f.revealed.getD (f.fidx p) false <;>
      cases hm : f.mines.getD (f.fidx p) false <;>
      cases hfl : f.flagged.getD (f.fidx p) false <;> simp [hb, eq_comm]
  · simp [if_neg hb, hb]

/-! ## Component lemmas -/

theorem length_n_neighbors_grid (h w : Nat) (mines : List Bool) :
    (n_neighbors_grid h w mines).length = h * w := by
  simp [n_neighbors_grid]

theorem fidx_lt_of_inB (f : MineField) (p : Point) (hp : f.inB p) :
    f.fidx p < f.dim.1 * f.dim.2 :=
  fidx_lt hp.1 hp.2

theorem pick_non_mine_spec (mines : List Bool) (rngL : List Nat)
    (t : Nat) (rest : List Nat) (hlen : 0 < mines.length)
    (h : MineField.pick_non_mine mines rngL = some (t, rest)) :
    t < mines.length ∧ mines.getD t false = false := by
  induction rngL with
  | nil => simp [MineField.pick_non_mine] at h
  | cons c cs ih =>
    unfold MineField.pick_non_mine at h
    by_cases hc : mines.getD (c % mines.length) false
    · rw [if_pos hc] at h
      exact ih h
    · rw [if_neg hc] at h
      obtain ⟨rfl, rfl⟩ : c % mines.length = t ∧ cs = rest := by
        simpa using h
      exact ⟨Nat.mod_lt c hlen, by simpa using hc⟩

theorem move_mine_spec (f : MineField) (p : Point) (f' : MineField)
    (hWF : WF f) (h : f.move_mine p = Except.ok f') :
    ∃ t, t < f.mines.length ∧ f.mines.getD t false = false ∧
      f'.mines = (f.mines.set t true).set (f.fidx p) false ∧
      f'.neighbors = n_neighbors_grid f.dim.1 f.dim.2 f'.mines ∧
      f'.revealed = f.revealed ∧ f'.flagged = f.flagged ∧
      f'.n_revealed = f.n_revealed ∧ f'.dim = f.dim ∧
      f.mines.getD (f.fidx p) false = true ∧ f.inB p := by
  obtain ⟨hd1, hd2, hlm, _, _, _⟩ := hWF
  have hlen : 0 < f.mines.length := by
    rw [hlm]; exact Nat.mul_pos hd1 hd2
  unfold MineField.move_mine at h
  unfold MineField.peek_mine at h
  by_cases hb : f.inB p
  · rw [if_pos hb] at h
    by_cases hm : f.mines.getD (f.fidx p) false
    · rw [hm] at h
      simp only at h
      rw [if_neg (by omega)] at h
      cases hpick : MineField.pick_non_mine f.mines f.rng with
      | none => rw [hpick] at h; exact absurd h (by simp)
      | some tr =>
        obtain ⟨t, rest⟩ := tr
        rw [hpick] at h
        simp only [Except.ok.injEq] at h
        obtain ⟨ht1, ht2⟩ := pick_non_mine_spec f.mines f.rng t rest hlen hpick
        refine ⟨t, ht1, ht2, ?_, ?_, ?_, ?_, ?_, ?_, hm, hb⟩ <;>
          rw [← h]
    · rw [Bool.not_eq_true] at hm
      rw [hm] at h
      exact absurd h (by simp)
  · rw [if_neg hb] at h
    exact absurd h (by simp)

/-- On well-formed fields a successful relocation preserves the total mine
count: it sets one fresh mine and clears the clicked one. -/
theorem move_mine_nTrue (f : MineField) (p : Point) (f' : MineField)
    (hWF : WF f) (h : f.move_mine p = Except.ok f') :
    nTrue f'.mines = nTrue f.mines := by
  obtain ⟨t, ht1, ht2, hm2, _, _, _, _, _, hmp, hb⟩ := move_mine_spec f p f' hWF h
  have hne : f.fidx p ≠ t := by
    intro he
    rw [he, ht2] at hmp
    exact absurd hmp (by simp)
  have h1 : nTrue (f.mines.set t true) = nTrue f.mines + 1 :=
    nTrue_set_true f.mines t ht1 ht2
  have h2 : (f.mines.set t true).getD (f.fidx p) false = true := by
    rw [getD_set_ne f.mines true false (fun he => hne he.symm)]
    exact hmp
  have h3 : nTrue (f.mines.set t true) =
      nTrue ((f.mines.set t true).set (f.fidx p) false) + 1 :=
    nTrue_set_false _ _ h2
  rw [hm2]
  omega

theorem move_mine_clears (f : MineField) (p : Point) (f' : MineField)
    (hWF : WF f) (h : f.move_mine p = Except.ok f') :
    f'.mines.getD (f.fidx p) false = false := by
  obtain ⟨t, ht1, ht2, hm2, _, _, _, _, _, hmp, hb⟩ := move_mine_spec f p f' hWF h
  rw [hm2]
  exact getD_set_self _ _ _ _ (by
    rw [List.length_set]
    calc f.fidx p < f.dim.1 * f.dim.2 := fidx_lt_of_inB f p hb
    _ = f.mines.length := hWF.2.2.1.symm)

theorem move_mine_Inv (f : MineField) (p : Point) (f' : MineField)
    (hWF : WF f) (h : f.move_mine p = Except.ok f') : Inv f' := by
  obtain ⟨t, ht1, ht2, hm2, hnb, hrv, hfl, hnr, hdim, hmp, hb⟩ :=
    move_mine_spec f p f' hWF h
  obtain ⟨hd1, hd2, hlm, hln, hlr, hlf⟩ := hWF
  constructor
  · refine ⟨by rw [hdim]; exact hd1, by rw [hdim]; exact hd2, ?_, ?_, ?_, ?_⟩
    · rw [hm2, hdim]; simpa using hlm
    · rw [hnb, hdim, length_n_neighbors_grid]
    · rw [hrv, hdim]; exact hlr
    · rw [hfl, hdim]; exact hlf
  · unfold coherent
    rw [hnb, hdim]

/-! ## Lemmas about the end-of-game sweep and about marking a square -/

theorem getD_zipWith_or (r m : List Bool) (hl : r.length = m.length)
    (k : Nat) :
    (List.zipWith (fun a b => a || b) r m).getD k false =
      (r.getD k false || m.getD k false) := by
  simp only [List.getD_eq_getElem?_getD, List.getElem?_zipWith]
  by_cases hk : k < r.length
  · rw [List.getElem?_eq_getElem hk, List.getElem?_eq_getElem (by omega)]
    simp
  · rw [List.getElem?_eq_none (by omega), List.getElem?_eq_none (by omega)]
    rfl

theorem reveal_all_mines_getD (f : MineField)
    (hl : f.revealed.length = f.mines.length) (k : Nat) :
    (f.reveal_all_mines).revealed.getD k false =
      (f.revealed.getD k false || f.mines.getD k false) :=
  getD_zipWith_or f.revealed f.mines hl k

theorem reveal_all_mines_Inv (f : MineField) (hInv : Inv f) :
    Inv f.reveal_all_mines := by
  obtain ⟨⟨hd1, hd2, hlm, hln, hlr, hlf⟩, hco⟩ := hInv
  refine ⟨⟨hd1, hd2, hlm, hln, ?_, hlf⟩, hco⟩
  simp [MineField.reveal_all_mines, List.length_zipWith, hlm, hlr]

theorem reveal_all_mines_all (f : MineField) (hWF : WF f) :
    all_mines_revealed f.reveal_all_mines := by
  obtain ⟨hd1, hd2, hlm, hln, hlr, hlf⟩ := hWF
  intro k hk hmk
  rw [reveal_all_mines_getD f (by omega) k]
  simp [MineField.reveal_all_mines] at hmk
  simp [hmk]

theorem reveal_all_mines_mono (f : MineField)
    (hl : f.revealed.length = f.mines.length) (k : Nat)
    (h : f.revealed.getD k false = true) :
    (f.reveal_all_mines).revealed.getD k false = true := by
  rw [reveal_all_mines_getD f hl k, h]
  rfl

theorem game_won_reveal_all_mines (f : MineField) :
    (f.reveal_all_mines).game_won = f.game_won := rfl

theorem mark_revealed_Inv (f : MineField) (p : Point) (hInv : Inv f) :
    Inv (f.mark_revealed p) := by
  obtain ⟨⟨hd1, hd2, hlm, hln, hlr, hlf⟩, hco⟩ := hInv
  exact ⟨⟨hd1, hd2, hlm, hln, by simp [MineField.mark_revealed, hlr], hlf⟩, hco⟩

theorem mark_revealed_counter (f : MineField) (p : Point)
    (hWF : WF f) (hb : f.inB p)
    (hr : f.revealed.getD (f.fidx p) false = false)
    (hc : counter_ok f) : counter_ok (f.mark_revealed p) := by
  have hlt : f.fidx p < f.revealed.length := by
    rw [hWF.2.2.2.2.1]; exact fidx_lt_of_inB f p hb
  unfold counter_ok at hc ⊢
  simp only [MineField.mark_revealed]
  rw [nTrue_set_true f.revealed (f.fidx p) hlt hr, hc]

theorem mark_revealed_excl (f : MineField) (p : Point)
    (hfl : f.flagged.getD (f.fidx p) false = false)
    (he : excl_ok f) : excl_ok (f.mark_revealed p) := by
  intro k hk hrk
  simp only [MineField.mark_revealed] at hk hrk ⊢
  rw [List.length_set] at hk
  by_cases hkp : k = f.fidx p
  · rw [hkp]; exact hfl
  · rw [getD_set_ne f.revealed true false (fun he2 => hkp he2.symm)] at hrk
    exact he k hk hrk

theorem mark_revealed_mono (f : MineField) (p : Point) (k : Nat)
    (h : f.revealed.getD k false = true) :
    (f.mark_revealed p).revealed.getD k false = true := by
  simp only [MineField.mark_revealed]
  by_cases hkp : k = f.fidx p
  · rw [hkp] at h ⊢
    exact getD_set_self f.revealed (f.fidx p) true false
      (getD_true_lt f.revealed (f.fidx p) h)
  · rw [getD_set_ne f.revealed true false (fun he2 => hkp he2.symm)]
    exact h

/-! ## Unfolding equations for `revealGo` -/

theorem revealGo_zero (f : MineField) (p : Point) :
    MineField.revealGo 0 f p = (f, MoveResult.err "recursion limit") := rfl

theorem revealGo_succ_none (fuel : Nat) (f : MineField) (p : Point)
    (h : f.view_sq p = none) :
    MineField.revealGo (fuel + 1) f p = (f, MoveResult.err "index OOB") := by
  simp [MineField.revealGo, h]

theorem revealGo_succ_flag (fuel : Nat) (f : MineField) (p : Point)
    (h : f.view_sq p = some SquareView.flag) :
    MineField.revealGo (fuel + 1) f p = (f, MoveResult.ok) := by
  simp [MineField.revealGo, h]

theorem revealGo_succ_revealed (fuel : Nat) (f : MineField) (p : Point)
    (n : Nat) (h : f.view_sq p = some (SquareView.revealed n)) :
    MineField.revealGo (fuel + 1) f p =
      MineField.chord (MineField.revealGo fuel) f p := by
  simp [MineField.revealGo, h]

theorem revealGo_succ_hidden (fuel : Nat) (f : MineField) (p : Point)
    (h : f.view_sq p = some SquareView.hidden) :
    MineField.revealGo (fuel + 1) f p =
      MineField.mine_check (MineField.revealGo fuel) (f.mark_revealed p) p := by
  simp [MineField.revealGo, h]

theorem revealGo_succ_mine (fuel : Nat) (f : MineField) (p : Point)
    (h : f.view_sq p = some SquareView.mine) :
    MineField.revealGo (fuel + 1) f p =
      MineField.mine_check (MineField.revealGo fuel) f p := by
  simp [MineField.revealGo, h]

theorem win_check_result (f : MineField) :
    (MineField.win_check f).2 = MoveResult.win ∨
      (MineField.win_check f).2 = MoveResult.ok := by
  unfold MineField.win_check
  split <;> simp

theorem win_check_win_iff (f : MineField) :
    (MineField.win_check f).2 = MoveResult.win ↔ f.game_won = true := by
  unfold MineField.win_check
  split <;> simp_all

theorem reveal_tail_result (rv : MineField → Point → MineField × MoveResult)
    (f : MineField) (p : Point) :
    (MineField.reveal_tail rv f p).2 = MoveResult.win ∨
      (MineField.reveal_tail rv f p).2 = MoveResult.ok := by
  unfold MineField.reveal_tail
  split <;> apply win_check_result

/-! ## The contract of a recursive reveal call -/

/-- What one recursive `reveal` call guarantees: dimensions, flags and the
total mine count are preserved, the structural invariant and revealed bits
are monotone, a call on an unrevealed non-mine square leaves the mines
untouched and cannot lose, non-terminal results preserve the counter and
exclusivity invariants, and a `Win` result means the game-won equality
holds and every mine is revealed. -/
def RevealSpec (rv : MineField → Point → MineField × MoveResult) : Prop :=
  ∀ f p, Inv f →
    (rv f p).1.dim = f.dim ∧
    Inv (rv f p).1 ∧
    (rv f p).1.flagged = f.flagged ∧
    nTrue (rv f p).1.mines = nTrue f.mines ∧
    (∀ k, f.revealed.getD k false = true →
      (rv f p).1.revealed.getD k false = true) ∧
    (f.revealed.getD (f.fidx p) false = false →
      f.mines.getD (f.fidx p) false = false →
      (rv f p).1.mines = f.mines ∧ (rv f p).2 ≠ MoveResult.lose) ∧
    (counter_ok f → excl_ok f → (rv f p).2 ≠ MoveResult.win →
      (rv f p).2 ≠ MoveResult.lose →
      counter_ok (rv f p).1 ∧ excl_ok (rv f p).1) ∧
    ((rv f p).2 = MoveResult.win →
      (rv f p).1.game_won = true ∧ all_mines_revealed (rv f p).1)

theorem reveal_step_skip (rv : MineField → Point → MineField × MoveResult)
    (f : MineField) (q : Point)
    (h : f.revealed.getD (f.fidx q) false = true) :
    MineField.reveal_step rv (f, MoveResult.ok) q = (f, MoveResult.ok) := by
  unfold MineField.reveal_step
  dsimp only
  rw [h]
  simp

theorem reveal_step_call (rv : MineField → Point → MineField × MoveResult)
    (f : MineField) (q : Point)
    (h : f.revealed.getD (f.fidx q) false = false) :
    MineField.reveal_step rv (f, MoveResult.ok) q = rv f q := by
  unfold MineField.reveal_step
  dsimp only
  rw [h]
  simp

theorem foldl_reveal_step_stuck
    (rv : MineField → Point → MineField × MoveResult) (l : List Point)
    (acc : MineField × MoveResult) (h : acc.2 ≠ MoveResult.ok) :
    l.foldl (MineField.reveal_step rv) acc = acc := by
  induction l with
  | nil => rfl
  | cons q t ih =>
    rw [List.foldl_cons,
      show MineField.reveal_step rv acc q = acc from by
        unfold MineField.reveal_step; rw [if_neg h]]
    exact ih

/-- The `reveal_neighbors` fold preserves the contract facts along the
whole sweep; moreover, when every square of the list is mine-free, the
sweep leaves the mines unchanged and cannot produce `Lose`. -/
theorem fold_spec (rv : MineField → Point → MineField × MoveResult)
    (hrv : RevealSpec rv) :
    ∀ (l : List Point) (f : MineField), Inv f →
      (l.foldl (MineField.reveal_step rv) (f, MoveResult.ok)).1.dim = f.dim ∧
      Inv (l.foldl (MineField.reveal_step rv) (f, MoveResult.ok)).1 ∧
      (l.foldl (MineField.reveal_step rv) (f, MoveResult.ok)).1.flagged =
        f.flagged ∧
      nTrue (l.foldl (MineField.reveal_step rv) (f, MoveResult.ok)).1.mines =
        nTrue f.mines ∧
      (∀ k, f.revealed.getD k false = true →
        (l.foldl (MineField.reveal_step rv)
          (f, MoveResult.ok)).1.revealed.getD k false = true) ∧
      (counter_ok f → excl_ok f →
        (l.foldl (MineField.reveal_step rv) (f, MoveResult.ok)).2 ≠
          MoveResult.win →
        (l.foldl (MineField.reveal_step rv) (f, MoveResult.ok)).2 ≠
          MoveResult.lose →
        counter_ok (l.foldl (MineField.reveal_step rv)
          (f, MoveResult.ok)).1 ∧
        excl_ok (l.foldl (MineField.reveal_step rv) (f, MoveResult.ok)).1) ∧
      ((l.foldl (MineField.reveal_step rv) (f, MoveResult.ok)).2 =
          MoveResult.win →
        (l.foldl (MineField.reveal_step rv)
          (f, MoveResult.ok)).1.game_won = true ∧
        all_mines_revealed
          (l.foldl (MineField.reveal_step rv) (f, MoveResult.ok)).1) ∧
      ((∀ q ∈ l, f.mines.getD (f.fidx q) false = false) →
        (l.foldl (MineField.reveal_step rv) (f, MoveResult.ok)).1.mines =
          f.mines ∧
        (l.foldl (MineField.reveal_step rv) (f, MoveResult.ok)).2 ≠
          MoveResult.lose) := by
  intro l
  induction l with
  | nil =>
    intro f hf
    refine ⟨rfl, hf, rfl, rfl, fun k h => h, fun hc he _ _ => ⟨hc, he⟩,
      ?_, fun _ => ⟨rfl, ?_⟩⟩
    · intro hcon
      rw [List.foldl_nil] at hcon
      exact absurd hcon (by simp)
    · intro hcon
      rw [List.foldl_nil] at hcon
      exact absurd hcon (by simp)
  | cons q t ih =>
    intro f hf
    rw [List.foldl_cons]
    by_cases hrev : f.revealed.getD (f.fidx q) false = true
    · -- already revealed: the loop skips this neighbour
      rw [reveal_step_skip rv f q hrev]
      obtain ⟨i1, i2, i3, i4, i5, i6, i7, i8⟩ := ih f hf
      exact ⟨i1, i2, i3, i4, i5, i6, i7,
        fun hall => i8 (fun q' hq' => hall q' (by simp [hq']))⟩
    · rw [Bool.not_eq_true] at hrev
      rw [reveal_step_call rv f q hrev]
      obtain ⟨sdim, sInv, sflag, smines, smono, snomine, scnt, swin⟩ :=
        hrv f q hf
      have hfidx : ∀ q' : Point, (rv f q).1.fidx q' = f.fidx q' := by
        intro q'
        unfold MineField.fidx
        rw [sdim]
      by_cases hok : (rv f q).2 = MoveResult.ok
      · -- sub-call succeeded with Ok: the sweep continues
        have hacc : rv f q = ((rv f q).1, MoveResult.ok) := by
          rw [← hok]
        rw [hacc]
        obtain ⟨i1, i2, i3, i4, i5, i6, i7, i8⟩ := ih (rv f q).1 sInv
        refine ⟨i1.trans sdim, i2, i3.trans sflag, i4.trans smines,
          fun k hk => i5 k (smono k hk), ?_, i7, ?_⟩
        · intro hc he hw hl
          obtain ⟨hc1, he1⟩ := scnt hc he (by rw [hok]; simp)
            (by rw [hok]; simp)
          exact i6 hc1 he1 hw hl
        · intro hall
          have hq0 : f.mines.getD (f.fidx q) false = false :=
            hall q (by simp)
          obtain ⟨heq, _⟩ := snomine hrev hq0
          have i8' := i8 (fun q' hq' => by
            rw [hfidx q', heq]
            exact hall q' (by simp [hq']))
          exact ⟨i8'.1.trans heq, i8'.2⟩
      · -- sub-call ended the sweep: every later neighbour is skipped
        rw [foldl_reveal_step_stuck rv t (rv f q) hok]
        refine ⟨sdim, sInv, sflag, smines, smono, ?_, swin, ?_⟩
        · intro hc he hw hl
          exact scnt hc he hw hl
        · intro hall
          exact snomine hrev (hall q (by simp))


/-! ## Specifications of the tail, the mine check, and chording -/

theorem win_check_spec (f : MineField) (hInv : Inv f) :
    (MineField.win_check f).1.dim = f.dim ∧
    Inv (MineField.win_check f).1 ∧
    (MineField.win_check f).1.flagged = f.flagged ∧
    (MineField.win_check f).1.mines = f.mines ∧
    (∀ k, f.revealed.getD k false = true →
      (MineField.win_check f).1.revealed.getD k false = true) ∧
    (counter_ok f → excl_ok f → (MineField.win_check f).2 = MoveResult.ok →
      counter_ok (MineField.win_check f).1 ∧
        excl_ok (MineField.win_check f).1) ∧
    ((MineField.win_check f).2 = MoveResult.win →
      (MineField.win_check f).1.game_won = true ∧
        all_mines_revealed (MineField.win_check f).1) := by
  have hlen : f.revealed.length = f.mines.length := by
    obtain ⟨⟨_, _, h1, _, h2, _⟩, _⟩ := hInv
    omega
  unfold MineField.win_check
  by_cases hw : f.game_won = true
  · rw [if_pos hw]
    refine ⟨rfl, reveal_all_mines_Inv f hInv, rfl, rfl,
      fun k hk => reveal_all_mines_mono f hlen k hk, ?_, ?_⟩
    · intro _ _ hcon
      exact absurd hcon (by simp)
    · intro _
      rw [game_won_reveal_all_mines]
      exact ⟨hw, reveal_all_mines_all f hInv.1⟩
  · rw [if_neg hw]
    refine ⟨rfl, hInv, rfl, rfl, fun k hk => hk,
      fun hc he _ => ⟨hc, he⟩, ?_⟩
    intro hcon
    exact absurd hcon (by simp)

theorem reveal_tail_spec (rv : MineField → Point → MineField × MoveResult)
    (hrv : RevealSpec rv) (f : MineField) (p : Point)
    (hInv : Inv f) (hb : f.inB p) :
    (MineField.reveal_tail rv f p).1.dim = f.dim ∧
    Inv (MineField.reveal_tail rv f p).1 ∧
    (MineField.reveal_tail rv f p).1.flagged = f.flagged ∧
    (MineField.reveal_tail rv f p).1.mines = f.mines ∧
    (∀ k, f.revealed.getD k false = true →
      (MineField.reveal_tail rv f p).1.revealed.getD k false = true) ∧
    (counter_ok f → excl_ok f →
      (MineField.reveal_tail rv f p).2 = MoveResult.ok →
      counter_ok (MineField.reveal_tail rv f p).1 ∧
        excl_ok (MineField.reveal_tail rv f p).1) ∧
    ((MineField.reveal_tail rv f p).2 = MoveResult.win →
      (MineField.reveal_tail rv f p).1.game_won = true ∧
        all_mines_revealed (MineField.reveal_tail rv f p).1) := by
  unfold MineField.reveal_tail
  by_cases hnn : f.neighbors.getD (f.fidx p) 0 = 0
  · rw [if_pos hnn]
    have htargets := flood_targets_not_mine f p hInv hb hnn
    obtain ⟨g1, g2, g3, g4, g5, g6, g7, g8⟩ :=
      fold_spec rv hrv (f.neighbors_iter p) f hInv
    have hmines8 := g8 (fun q hq => (htargets q hq).2)
    unfold MineField.reveal_neighbors
    obtain ⟨w1, w2, w3, w4, w5, w6, w7⟩ := win_check_spec
      ((f.neighbors_iter p).foldl (MineField.reveal_step rv)
        (f, MoveResult.ok)).1 g2
    refine ⟨w1.trans g1, w2, w3.trans g3, w4.trans hmines8.1,
      fun k hk => w5 _ (g5 k hk), ?_, w7⟩
    intro hc he hok
    have hnw : ((f.neighbors_iter p).foldl (MineField.reveal_step rv)
        (f, MoveResult.ok)).2 ≠ MoveResult.win := by
      intro hwin
      have := (g7 hwin).1
      unfold MineField.win_check at hok
      rw [if_pos this] at hok
      exact absurd hok (by simp)
    obtain ⟨hc3, he3⟩ := g6 hc he hnw hmines8.2
    exact w6 hc3 he3 hok
  · rw [if_neg hnn]
    exact win_check_spec f hInv

theorem counter_ok_congr (f g : MineField) (hr : g.revealed = f.revealed)
    (hn : g.n_revealed = f.n_revealed) (h : counter_ok f) :
    counter_ok g := by
  unfold counter_ok at h ⊢
  rw [hr, hn, h]

theorem excl_ok_congr (f g : MineField) (hr : g.revealed = f.revealed)
    (hfl : g.flagged = f.flagged) (h : excl_ok f) : excl_ok g := by
  intro k hk hrk
  rw [hr] at hk hrk
  rw [hfl]
  exact h k hk hrk

theorem mine_check_spec (rv : MineField → Point → MineField × MoveResult)
    (hrv : RevealSpec rv) (f : MineField) (p : Point)
    (hInv : Inv f) (hb : f.inB p) :
    (MineField.mine_check rv f p).1.dim = f.dim ∧
    Inv (MineField.mine_check rv f p).1 ∧
    (MineField.mine_check rv f p).1.flagged = f.flagged ∧
    nTrue (MineField.mine_check rv f p).1.mines = nTrue f.mines ∧
    (∀ k, f.revealed.getD k false = true →
      (MineField.mine_check rv f p).1.revealed.getD k false = true) ∧
    (f.mines.getD (f.fidx p) false = false →
      (MineField.mine_check rv f p).1.mines = f.mines ∧
      (MineField.mine_check rv f p).2 ≠ MoveResult.lose) ∧
    (counter_ok f → excl_ok f →
      (MineField.mine_check rv f p).2 ≠ MoveResult.win →
      (MineField.mine_check rv f p).2 ≠ MoveResult.lose →
      counter_ok (MineField.mine_check rv f p).1 ∧
        excl_ok (MineField.mine_check rv f p).1) ∧
    ((MineField.mine_check rv f p).2 = MoveResult.win →
      (MineField.mine_check rv f p).1.game_won = true ∧
        all_mines_revealed (MineField.mine_check rv f p).1) := by
  have hlen : f.revealed.length = f.mines.length := by
    obtain ⟨⟨_, _, h1, _, h2, _⟩, _⟩ := hInv
    omega
  unfold MineField.mine_check
  by_cases hm : f.mines.getD (f.fidx p) false = true
  · rw [hm]
    simp only [if_pos]
    by_cases hn1 : f.n_revealed = 1
    · rw [if_pos hn1]
      cases hmv : f.move_mine p with
      | error e =>
        refine ⟨rfl, hInv, rfl, rfl, fun k hk => hk, ?_, ?_, ?_⟩
        · intro hcon
          exact absurd hcon (by simp)
        · intro hc he _ _
          exact ⟨hc, he⟩
        · intro hcon
          exact absurd hcon (by simp)
      | ok f2 =>
        obtain ⟨t, ht1, ht2, hm2, hnb, hrv2, hfl2, hnr2, hdim2, hmp, hbp⟩ :=
          move_mine_spec f p f2 hInv.1 hmv
        have hInv2 : Inv f2 := move_mine_Inv f p f2 hInv.1 hmv
        have hb2 : f2.inB p := by
          unfold MineField.inB
          rw [hdim2]
          exact hb
        have hcnt2 : nTrue f2.mines = nTrue f.mines :=
          move_mine_nTrue f p f2 hInv.1 hmv
        obtain ⟨t1, t2, t3, t4, t5, t6, t7⟩ :=
          reveal_tail_spec rv hrv f2 p hInv2 hb2
        refine ⟨t1.trans hdim2, t2, t3.trans (by rw [hfl2]),
          by rw [t4, hcnt2], ?_, ?_, ?_, t7⟩
        · intro k hk
          apply t5
          rw [hrv2]
          exact hk
        · intro hcon
          exact absurd hcon (by simp)
        · intro hc he hw hl
          have hc2 : counter_ok f2 := counter_ok_congr f f2 hrv2 hnr2 hc
          have he2 : excl_ok f2 := excl_ok_congr f f2 hrv2 hfl2 he
          rcases reveal_tail_result rv f2 p with hres | hres
          · exact absurd hres hw
          · exact t6 hc2 he2 hres
    · rw [if_neg hn1]
      refine ⟨rfl, reveal_all_mines_Inv f hInv, rfl, rfl,
        fun k hk => reveal_all_mines_mono f hlen k hk, ?_, ?_, ?_⟩
      · intro hcon
        exact absurd hcon (by simp)
      · intro _ _ _ hl
        exact absurd rfl hl
      · intro hcon
        exact absurd hcon (by simp)
  · rw [Bool.not_eq_true] at hm
    rw [hm]
    simp only [Bool.false_eq_true, if_neg, not_false_eq_true]
    obtain ⟨t1, t2, t3, t4, t5, t6, t7⟩ := reveal_tail_spec rv hrv f p hInv hb
    refine ⟨t1, t2, t3, by rw [t4], t5, ?_, ?_, t7⟩
    · intro _
      refine ⟨t4, ?_⟩
      rcases reveal_tail_result rv f p with hres | hres <;> rw [hres] <;> simp
    · intro hc he hw hl
      rcases reveal_tail_result rv f p with hres | hres
      · exact absurd hres hw
      · exact t6 hc he hres

theorem chord_spec (rv : MineField → Point → MineField × MoveResult)
    (hrv : RevealSpec rv) (f : MineField) (p : Point) (hInv : Inv f) :
    (MineField.chord rv f p).1.dim = f.dim ∧
    Inv (MineField.chord rv f p).1 ∧
    (MineField.chord rv f p).1.flagged = f.flagged ∧
    nTrue (MineField.chord rv f p).1.mines = nTrue f.mines ∧
    (∀ k, f.revealed.getD k false = true →
      (MineField.chord rv f p).1.revealed.getD k false = true) ∧
    (counter_ok f → excl_ok f →
      (MineField.chord rv f p).2 ≠ MoveResult.win →
      (MineField.chord rv f p).2 ≠ MoveResult.lose →
      counter_ok (MineField.chord rv f p).1 ∧
        excl_ok (MineField.chord rv f p).1) ∧
    ((MineField.chord rv f p).2 = MoveResult.win →
      (MineField.chord rv f p).1.game_won = true ∧
        all_mines_revealed (MineField.chord rv f p).1) := by
  unfold MineField.chord
  by_cases hcc : f.neighbors.getD (f.fidx p) 0 =
      ((f.neighbors_iter p).map
        (fun q => if f.flagged.getD (f.fidx q) false then 1 else 0)).sum
  · rw [if_pos hcc]
    unfold MineField.reveal_neighbors
    obtain ⟨g1, g2, g3, g4, g5, g6, g7, _⟩ :=
      fold_spec rv hrv (f.neighbors_iter p) f hInv
    exact ⟨g1, g2, g3, g4, g5, g6, g7⟩
  · rw [if_neg hcc]
    refine ⟨rfl, hInv, rfl, rfl, fun k hk => hk,
      fun hc he _ _ => ⟨hc, he⟩, ?_⟩
    intro hcon
    exact absurd hcon (by simp)

/-! ## The master specification of `revealGo` -/

theorem revealGo_spec : ∀ fuel, RevealSpec (MineField.revealGo fuel) := by
  intro fuel
  induction fuel with
  | zero =>
    intro f p hf
    rw [revealGo_zero f p]
    exact ⟨rfl, hf, rfl, rfl, fun k h => h, fun _ _ => ⟨rfl, by simp⟩,
      fun hc he _ _ => ⟨hc, he⟩, by simp⟩
  | succ fuel ih =>
    intro f p hf
    cases hview : f.view_sq p with
    | none =>
      rw [revealGo_succ_none fuel f p hview]
      exact ⟨rfl, hf, rfl, rfl, fun k h => h, fun _ _ => ⟨rfl, by simp⟩,
        fun hc he _ _ => ⟨hc, he⟩, by simp⟩
    | some v =>
      cases v with
      | flag =>
        rw [revealGo_succ_flag fuel f p hview]
        exact ⟨rfl, hf, rfl, rfl, fun k h => h, fun _ _ => ⟨rfl, by simp⟩,
          fun hc he _ _ => ⟨hc, he⟩, by simp⟩
      | revealed n =>
        rw [revealGo_succ_revealed fuel f p n hview]
        rw [view_sq_revealed_iff] at hview
        obtain ⟨c1, c2, c3, c4, c5, c6, c7⟩ :=
          chord_spec (MineField.revealGo fuel) ih f p hf
        refine ⟨c1, c2, c3, c4, c5, ?_, c6, c7⟩
        intro hcon
        rw [hview.2.1] at hcon
        exact absurd hcon (by simp)
      | mine =>
        rw [revealGo_succ_mine fuel f p hview]
        rw [view_sq_mine_iff] at hview
        obtain ⟨m1, m2, m3, m4, m5, m6, m7, m8⟩ :=
          mine_check_spec (MineField.revealGo fuel) ih f p hf hview.1
        refine ⟨m1, m2, m3, m4, m5, ?_, m7, m8⟩
        intro hcon
        rw [hview.2.1] at hcon
        exact absurd hcon (by simp)
      | hidden =>
        rw [revealGo_succ_hidden fuel f p hview]
        rw [view_sq_hidden_iff] at hview
        obtain ⟨hb, hrv0, hfl0⟩ := hview
        have hmInv : Inv (f.mark_revealed p) := mark_revealed_Inv f p hf
        have hmb : (f.mark_revealed p).inB p := hb
        obtain ⟨m1, m2, m3, m4, m5, m6, m7, m8⟩ :=
          mine_check_spec (MineField.revealGo fuel) ih
            (f.mark_revealed p) p hmInv hmb
        refine ⟨m1, m2, m3, m4, ?_, ?_, ?_, m8⟩
        · intro k hk
          exact m5 k (mark_revealed_mono f p k hk)
        · intro _ hmine
          have hmm : (f.mark_revealed p).mines.getD
              ((f.mark_revealed p).fidx p) false = false := hmine
          obtain ⟨he1, he2⟩ := m6 hmm
          exact ⟨he1, he2⟩
        · intro hc he hw hl
          exact m7 (mark_revealed_counter f p hf.1 hb hrv0 hc)
            (mark_revealed_excl f p hfl0 he) hw hl


/-! ## `toggle_flag` lemmas -/

theorem toggle_flag_shape (f : MineField) (p : Point) :
    (f.toggle_flag p).1.mines = f.mines ∧
    (f.toggle_flag p).1.neighbors = f.neighbors ∧
    (f.toggle_flag p).1.revealed = f.revealed ∧
    (f.toggle_flag p).1.n_revealed = f.n_revealed ∧
    (f.toggle_flag p).1.dim = f.dim ∧
    (f.toggle_flag p).1.flagged.length = f.flagged.length := by
  unfold MineField.toggle_flag
  by_cases h1 : f.is_revealed p = some true
  · rw [if_pos h1]
    exact ⟨rfl, rfl, rfl, rfl, rfl, rfl⟩
  · rw [if_neg h1]
    cases h2 : f.is_flag p with
    | some fl =>
      exact ⟨rfl, rfl, rfl, rfl, rfl, List.length_set f.flagged _ _⟩
    | none =>
      exact ⟨rfl, rfl, rfl, rfl, rfl, rfl⟩

theorem toggle_flag_Inv (f : MineField) (p : Point) (hInv : Inv f) :
    Inv (f.toggle_flag p).1 := by
  obtain ⟨s1, s2, s3, s4, s5, s6⟩ := toggle_flag_shape f p
  obtain ⟨⟨hd1, hd2, hlm, hln, hlr, hlf⟩, hco⟩ := hInv
  refine ⟨⟨?_, ?_, ?_, ?_, ?_, ?_⟩, ?_⟩
  · rw [s5]; exact hd1
  · rw [s5]; exact hd2
  · rw [s1, s5]; exact hlm
  · rw [s2, s5]; exact hln
  · rw [s3, s5]; exact hlr
  · rw [s6, s5]; exact hlf
  · unfold coherent
    rw [s1, s2, s5]
    exact hco

theorem toggle_flag_GoodState (f : MineField) (p : Point)
    (h : GoodState f) : GoodState (f.toggle_flag p).1 := by
  obtain ⟨hInv, hc, he⟩ := h
  refine ⟨toggle_flag_Inv f p hInv, ?_, ?_⟩
  · obtain ⟨s1, s2, s3, s4, s5, s6⟩ := toggle_flag_shape f p
    exact counter_ok_congr f (f.toggle_flag p).1 s3 s4 hc
  · unfold MineField.toggle_flag
    by_cases h1 : f.is_revealed p = some true
    · rw [if_pos h1]
      exact he
    · rw [if_neg h1]
      cases h2 : f.is_flag p with
      | some fl =>
        intro k hk hrk
        simp only at hk hrk ⊢
        by_cases hkp : k = f.fidx p
        · -- the toggled square is not revealed, contradiction with hrk
          exfalso
          have hb : f.inB p := by
            unfold MineField.is_flag at h2
            by_cases hb : f.inB p
            · exact hb
            · rw [if_neg hb] at h2
              exact absurd h2 (by simp)
          have : f.is_revealed p = some true := by
            unfold MineField.is_revealed
            rw [if_pos hb, ← hkp, hrk]
          exact h1 this
        · rw [getD_set_ne f.flagged _ false (fun he2 => hkp he2.symm)]
          exact he k hk hrk
      | none =>
        exact he

/-! ## Facts about the constructor -/

theorem foldl_set_norm (w : Nat) (ixs : List Nat) (init : List Bool) :
    ixs.foldl (fun m ix => m.set ((ix / w) * w + ix % w) true) init =
      ixs.foldl (fun m ix => m.set ix true) init := by
  induction ixs generalizing init with
  | nil => rfl
  | cons ix t ih =>
    rw [List.foldl_cons, List.foldl_cons]
    have harith : (ix / w) * w + ix % w = ix := by
      calc (ix / w) * w + ix % w = w * (ix / w) + ix % w := by ring
      _ = ix := Nat.div_add_mod ix w
    rw [harith]
    exact ih (init.set ix true)

theorem with_n_mines_mines (height width : Nat) (mine_ixs rng : List Nat) :
    (MineField.with_n_mines height width mine_ixs rng).mines =
      mine_ixs.foldl (fun m ix => m.set ix true)
        (List.replicate (height * width) false) := by
  unfold MineField.with_n_mines
  exact foldl_set_norm width mine_ixs _

theorem with_n_mines_nTrue (height width : Nat) (mine_ixs rng : List Nat)
    (h4 : mine_ixs.Nodup) (h5 : ∀ ix ∈ mine_ixs, ix < height * width) :
    nTrue (MineField.with_n_mines height width mine_ixs rng).mines =
      mine_ixs.length := by
  rw [with_n_mines_mines]
  rw [nTrue_foldl_set mine_ixs _ h4 ?_]
  · rw [nTrue_replicate]
    omega
  · intro ix hix
    refine ⟨by rw [List.length_replicate]; exact h5 ix hix, ?_⟩
    rw [getD_replicate]
    simp [h5 ix hix]

theorem with_n_mines_GoodState (height width : Nat) (mine_ixs rng : List Nat)
    (h1 : 0 < height) (h2 : 0 < width) :
    GoodState (MineField.with_n_mines height width mine_ixs rng) := by
  refine ⟨⟨⟨h1, h2, ?_, ?_, ?_, ?_⟩, ?_⟩, ?_, ?_⟩
  · rw [with_n_mines_mines, length_foldl_set, List.length_replicate]
    rfl
  · unfold MineField.with_n_mines
    rw [length_n_neighbors_grid]
  · unfold MineField.with_n_mines
    rw [List.length_replicate]
  · unfold MineField.with_n_mines
    rw [List.length_replicate]
  · unfold coherent MineField.with_n_mines
    rfl
  · unfold counter_ok MineField.with_n_mines
    rw [nTrue_replicate]
  · intro k hk hrk
    unfold MineField.with_n_mines at hrk
    rw [getD_replicate] at hrk
    split at hrk <;> exact absurd hrk (by simp)

/-! ## Reachable states -/

/-- States of a game started with the exact-count constructor, after any
sequence of `reveal` and `toggle_flag` calls (including calls made after a
terminal result).  `reveal` steps cover every fuel value, hence in
particular the ample fuel that the public `reveal` wrapper uses. -/
inductive Reachable (hgt wdt nMines : Nat) : MineField → Prop where
  | init (mine_ixs rng : List Nat) (h1 : 0 < hgt) (h2 : 0 < wdt)
      (h3 : nMines < hgt * wdt) (h4 : mine_ixs.Nodup)
      (h5 : ∀ ix ∈ mine_ixs, ix < hgt * wdt)
      (h6 : mine_ixs.length = nMines) :
      Reachable hgt wdt nMines (MineField.with_n_mines hgt wdt mine_ixs rng)
  | flagStep (f : MineField) (p : Point) :
      Reachable hgt wdt nMines f →
      Reachable hgt wdt nMines (f.toggle_flag p).1
  | revealStep (f : MineField) (p : Point) (fuel : Nat) :
      Reachable hgt wdt nMines f →
      Reachable hgt wdt nMines (MineField.revealGo fuel f p).1

/-- States reachable as in `Reachable`, but where no `reveal` call along
the way returned `Win` or `Lose` (non-terminal play). -/
inductive ReachableNT (hgt wdt nMines : Nat) : MineField → Prop where
  | init (mine_ixs rng : List Nat) (h1 : 0 < hgt) (h2 : 0 < wdt)
      (h3 : nMines < hgt * wdt) (h4 : mine_ixs.Nodup)
      (h5 : ∀ ix ∈ mine_ixs, ix < hgt * wdt)
      (h6 : mine_ixs.length = nMines) :
      ReachableNT hgt wdt nMines (MineField.with_n_mines hgt wdt mine_ixs rng)
  | flagStep (f : MineField) (p : Point) :
      ReachableNT hgt wdt nMines f →
      ReachableNT hgt wdt nMines (f.toggle_flag p).1
  | revealStep (f : MineField) (p : Point) (fuel : Nat) :
      ReachableNT hgt wdt nMines f →
      (MineField.revealGo fuel f p).2 ≠ MoveResult.win →
      (MineField.revealGo fuel f p).2 ≠ MoveResult.lose →
      ReachableNT hgt wdt nMines (MineField.revealGo fuel f p).1

theorem reachable_Inv (hgt wdt nMines : Nat) (f : MineField)
    (hr : Reachable hgt wdt nMines f) : Inv f := by
  induction hr with
  | init mine_ixs rng h1 h2 h3 h4 h5 h6 =>
    exact (with_n_mines_GoodState hgt wdt mine_ixs rng h1 h2).1
  | flagStep g p hg ih => exact toggle_flag_Inv g p ih
  | revealStep g p fuel hg ih =>
    exact ((revealGo_spec fuel) g p ih).2.1

theorem reachable_nTrue_mines (hgt wdt nMines : Nat) (f : MineField)
    (hr : Reachable hgt wdt nMines f) : nTrue f.mines = nMines := by
  induction hr with
  | init mine_ixs rng h1 h2 h3 h4 h5 h6 =>
    rw [with_n_mines_nTrue hgt wdt mine_ixs rng h4 h5]
    exact h6
  | flagStep g p hg ih =>
    rw [(toggle_flag_shape g p).1]
    exact ih
  | revealStep g p fuel hg ih =>
    have hInv := reachable_Inv hgt wdt nMines g hg
    rw [((revealGo_spec fuel) g p hInv).2.2.2.1]
    exact ih

theorem reachableNT_GoodState (hgt wdt nMines : Nat) (f : MineField)
    (hr : ReachableNT hgt wdt nMines f) : GoodState f := by
  induction hr with
  | init mine_ixs rng h1 h2 h3 h4 h5 h6 =>
    exact with_n_mines_GoodState hgt wdt mine_ixs rng h1 h2
  | flagStep g p hg ih => exact toggle_flag_GoodState g p ih
  | revealStep g p fuel hg hnw hnl ih =>
    obtain ⟨hInv, hc, he⟩ := ih
    obtain ⟨_, hInv2, _, _, _, _, hcnt, _⟩ := (revealGo_spec fuel) g p hInv
    obtain ⟨hc2, he2⟩ := hcnt hc he hnw hnl
    exact ⟨hInv2, hc2, he2⟩


/-! ## Concrete fields used by witnesses and counterexamples -/

/-- A 2×2 field with a single mine at cell `(0,0)`. -/
def demo22 : MineField := MineField.with_n_mines 2 2 [0] []

/-- The state after winning `demo22` by revealing the three non-mines. -/
def demo22won : MineField :=
  (((demo22.reveal ⟨0, 1⟩).1.reveal ⟨1, 0⟩).1.reveal ⟨1, 1⟩).1

/-- The state after losing `demo22`: reveal `(1,1)`, then the mine. -/
def demo22lost0 : MineField :=
  ((demo22.reveal ⟨1, 1⟩).1.reveal ⟨0, 0⟩).1

/-- A 2×2 field with mines at `(0,0)` and `(0,1)`. -/
def demo22pair : MineField := MineField.with_n_mines 2 2 [0, 1] []

/-- Lose `demo22pair` with the mine at `(0,0)` flagged: reveal `(1,0)`,
flag `(0,0)`, then reveal the mine `(0,1)`. -/
def demo22lost : MineField :=
  (((demo22pair.reveal ⟨1, 0⟩).1.toggle_flag ⟨0, 0⟩).1.reveal ⟨0, 1⟩).1

/-! ## Claim C3 -/

/-- **C3, counterexample.**  The claim asserts the counter invariant also at
states reached through a `Win` or `Lose` result.  Winning `demo22` is such
a state: the winning sweep `reveal_all_mines` set the mine's revealed bit
without touching `n_revealed`, so the counter (3) differs from the number
of revealed cells (4). -/
theorem c3_cex : Reachable 2 2 1 demo22won ∧
    (((demo22.reveal ⟨0, 1⟩).1.reveal ⟨1, 0⟩).1.reveal ⟨1, 1⟩).2 =
      MoveResult.win ∧
    ¬ demo22won.n_revealed = nTrue demo22won.revealed := by
  refine ⟨?_, by decide, by decide⟩
  exact Reachable.revealStep _ ⟨1, 1⟩ _
    (Reachable.revealStep _ ⟨1, 0⟩ _
      (Reachable.revealStep _ ⟨0, 1⟩ _
        (Reachable.init [0] [] (by decide) (by decide) (by decide)
          (by decide) (by decide) (by decide))))

/-- **C3** (amended).  At every state reached from an exact-count
construction by reveal and flag moves none of which returned `Win` or
`Lose`, the scalar `n_revealed` equals the number of cells whose revealed
bit is set.  (As stated, the claim also covered states reached through a
terminal result; it fails there because the end-of-game sweep
`reveal_all_mines` marks mines revealed without updating the counter.) -/
theorem c3_counter_matches (hgt wdt nMines : Nat) (f : MineField)
    (hr : ReachableNT hgt wdt nMines f) :
    f.n_revealed = nTrue f.revealed :=
  (reachableNT_GoodState hgt wdt nMines f hr).2.1

theorem c3_counter_matches_witness :
    ((MineField.with_n_mines 2 2 [0] []).reveal ⟨0, 1⟩).1.n_revealed =
      nTrue ((MineField.with_n_mines 2 2 [0] []).reveal ⟨0, 1⟩).1.revealed :=
  c3_counter_matches 2 2 1 _
    (ReachableNT.revealStep _ ⟨0, 1⟩ _
      (ReachableNT.init [0] [] (by decide) (by decide) (by decide)
        (by decide) (by decide) (by decide))
      (by decide) (by decide))

/-! ## Claim C6 -/

/-- **C6.**  At every reachable state of a field built by the exact-count
constructor with valid parameters, the number of mine cells equals the
requested count, and a successful relocation sets exactly one fresh mine
cell and clears exactly one old one, preserving the total. -/
theorem c6_mine_count (hgt wdt nMines : Nat) (f : MineField)
    (hr : Reachable hgt wdt nMines f) :
    nTrue f.mines = nMines ∧
    (∀ (p : Point) (f2 : MineField), WF f →
      f.move_mine p = Except.ok f2 →
      ∃ t, t < f.mines.length ∧ f.mines.getD t false = false ∧
        f2.mines = (f.mines.set t true).set (f.fidx p) false ∧
        nTrue f2.mines = nTrue f.mines) := by
  refine ⟨reachable_nTrue_mines hgt wdt nMines f hr, ?_⟩
  intro p f2 hWF hmv
  obtain ⟨t, ht1, ht2, hm2, _, _, _, _, _, _, _⟩ :=
    move_mine_spec f p f2 hWF hmv
  exact ⟨t, ht1, ht2, hm2, move_mine_nTrue f p f2 hWF hmv⟩

theorem c6_mine_count_witness : nTrue demo22lost0.mines = 1 :=
  (c6_mine_count 2 2 1 demo22lost0
    (Reachable.revealStep _ ⟨0, 0⟩ _
      (Reachable.revealStep _ ⟨1, 1⟩ _
        (Reachable.init [0] [] (by decide) (by decide) (by decide)
          (by decide) (by decide) (by decide))))).1

/-! ## Claim C7 -/

/-- **C7.**  At every reachable state, the stored neighbour count of every
in-bounds cell equals the exact number of mine cells among its in-bounds
8-connected (Moore) neighbours — out-of-grid positions contributing
nothing — and hence lies between 0 and 8. -/
theorem c7_neighbor_grid (hgt wdt nMines : Nat) (f : MineField)
    (hr : Reachable hgt wdt nMines f) (p : Point) (hp : f.inB p) :
    f.neighbors.getD (f.fidx p) 0 =
      moore_mine_count f.dim.1 f.dim.2 f.mines p.i p.j ∧
    f.neighbors.getD (f.fidx p) 0 ≤ 8 := by
  have hco := (reachable_Inv hgt wdt nMines f hr).2
  have hval : f.neighbors.getD (f.fidx p) 0 =
      moore_mine_count f.dim.1 f.dim.2 f.mines p.i p.j := by
    rw [hco]
    unfold MineField.fidx
    exact n_neighbors_grid_correct f.dim.1 f.dim.2 f.mines p.i p.j hp.1 hp.2
  refine ⟨hval, ?_⟩
  rw [hval]
  exact moore_mine_count_le_eight f.dim.1 f.dim.2 f.mines p.i p.j

theorem c7_neighbor_grid_witness :
    demo22lost0.neighbors.getD (demo22lost0.fidx ⟨1, 1⟩) 0 =
      moore_mine_count demo22lost0.dim.1 demo22lost0.dim.2
        demo22lost0.mines 1 1 ∧
    demo22lost0.neighbors.getD (demo22lost0.fidx ⟨1, 1⟩) 0 ≤ 8 :=
  c7_neighbor_grid 2 2 1 demo22lost0
    (Reachable.revealStep _ ⟨0, 0⟩ _
      (Reachable.revealStep _ ⟨1, 1⟩ _
        (Reachable.init [0] [] (by decide) (by decide) (by decide)
          (by decide) (by decide) (by decide))))
    ⟨1, 1⟩ (by decide)

/-! ## Claim C9 -/

/-- **C9, counterexample.**  The claim asserts that no reachable state has
a cell both revealed and flagged.  Losing `demo22pair` with the mine at
`(0,0)` flagged refutes it: the losing sweep reveals the flagged mine and
leaves its flag set. -/
theorem c9_cex : Reachable 2 2 2 demo22lost ∧
    demo22lost.revealed.getD 0 false = true ∧
    demo22lost.flagged.getD 0 false = true := by
  refine ⟨?_, by decide, by decide⟩
  exact Reachable.revealStep _ ⟨0, 1⟩ _
    (Reachable.flagStep _ ⟨0, 0⟩
      (Reachable.revealStep _ ⟨1, 0⟩ _
        (Reachable.init [0, 1] [] (by decide) (by decide) (by decide)
          (by decide) (by decide) (by decide))))

/-- **C9** (amended).  At every state reached without a `Win` or `Lose`
result, no cell is both revealed and flagged: `toggle_flag` is a no-op on
revealed cells, `reveal` refuses flagged cells, and no non-terminal
operation sets a revealed cell's flag or reveals a flagged cell.  (As
stated, the claim also covered terminal states; it fails there because
the end-of-game sweep `reveal_all_mines` reveals flagged mines without
clearing their flags.) -/
theorem c9_revealed_flag_exclusive (hgt wdt nMines : Nat) (f : MineField)
    (hr : ReachableNT hgt wdt nMines f) (k : Nat)
    (hk : k < f.revealed.length) (hrev : f.revealed.getD k false = true) :
    f.flagged.getD k false = false :=
  (reachableNT_GoodState hgt wdt nMines f hr).2.2 k hk hrev

theorem c9_revealed_flag_exclusive_witness :
    ((MineField.with_n_mines 2 2 [0] []).reveal ⟨0, 1⟩).1.flagged.getD 1
      false = false :=
  c9_revealed_flag_exclusive 2 2 1 _
    (ReachableNT.revealStep _ ⟨0, 1⟩ _
      (ReachableNT.init [0] [] (by decide) (by decide) (by decide)
        (by decide) (by decide) (by decide))
      (by decide) (by decide))
    1 (by decide) (by decide)


/-! ## Claim C8 -/

/-- **C8.**  For every out-of-bounds coordinate, `reveal` and `toggle_flag`
both return the out-of-bounds error and leave the whole field state exactly
as before; being total functions of the embedded state, neither aborts. -/
theorem c8_out_of_bounds (f : MineField) (p : Point) (hp : ¬ f.inB p) :
    f.reveal p = (f, MoveResult.err "index OOB") ∧
    f.toggle_flag p = (f, MoveResult.err "index OOB") := by
  constructor
  · unfold MineField.reveal
    rw [show f.dim.1 * f.dim.2 + 3 = (f.dim.1 * f.dim.2 + 2) + 1 from rfl]
    exact revealGo_succ_none _ f p ((view_sq_none_iff f p).mpr hp)
  · unfold MineField.toggle_flag MineField.is_revealed MineField.is_flag
    rw [if_neg hp, if_neg hp]
    simp

theorem c8_out_of_bounds_witness :
    (¬ (MineField.with_n_mines 5 5 [12] []).inB ⟨5, 5⟩) ∧
    (MineField.with_n_mines 5 5 [12] []).reveal ⟨5, 5⟩ =
      (MineField.with_n_mines 5 5 [12] [], MoveResult.err "index OOB") ∧
    (MineField.with_n_mines 5 5 [12] []).toggle_flag ⟨5, 5⟩ =
      (MineField.with_n_mines 5 5 [12] [], MoveResult.err "index OOB") :=
  ⟨by decide, c8_out_of_bounds (MineField.with_n_mines 5 5 [12] []) ⟨5, 5⟩
    (by decide)⟩

/-! ## Claim C10 -/

/-- **C10.**  On an in-bounds, unrevealed cell of a well-formed field, each
`toggle_flag` call returns `Ok` and changes exactly that cell's flag bit,
and two consecutive calls restore the field exactly. -/
theorem toggle_flag_unrevealed (f : MineField) (p : Point) (hb : f.inB p)
    (hrev : f.revealed.getD (f.fidx p) false = false) :
    f.toggle_flag p =
      ({ f with flagged :=
            f.flagged.set (f.fidx p) (! f.flagged.getD (f.fidx p) false) },
        MoveResult.ok) := by
  have hnrev : ¬ f.is_revealed p = some true := by
    unfold MineField.is_revealed
    rw [if_pos hb, hrev]
    simp
  have hflag : f.is_flag p =
      some (f.flagged.getD (f.fidx p) false) := by
    unfold MineField.is_flag
    rw [if_pos hb]
  unfold MineField.toggle_flag
  rw [if_neg hnrev, hflag]

/-- **C10.**  On an in-bounds, unrevealed cell of a well-formed field, each
`toggle_flag` call returns `Ok` and changes exactly that cell's flag bit,
and two consecutive calls restore the field exactly. -/
theorem c10_toggle_involutive (f : MineField) (p : Point) (hWF : WF f)
    (hb : f.inB p) (hrev : f.revealed.getD (f.fidx p) false = false) :
    (f.toggle_flag p).2 = MoveResult.ok ∧
    (f.toggle_flag p).1 =
      { f with flagged :=
          f.flagged.set (f.fidx p) (! f.flagged.getD (f.fidx p) false) } ∧
    ((f.toggle_flag p).1.toggle_flag p).2 = MoveResult.ok ∧
    ((f.toggle_flag p).1.toggle_flag p).1 = f := by
  have hlt : f.fidx p < f.flagged.length := by
    rw [hWF.2.2.2.2.2]
    exact fidx_lt_of_inB f p hb
  have h1 := toggle_flag_unrevealed f p hb hrev
  have hb2 : (f.toggle_flag p).1.inB p := by
    rw [h1]
    exact hb
  have hrev2 : (f.toggle_flag p).1.revealed.getD
      ((f.toggle_flag p).1.fidx p) false = false := by
    rw [h1]
    exact hrev
  have h2 := toggle_flag_unrevealed ((f.toggle_flag p).1) p hb2 hrev2
  refine ⟨by rw [h1], by rw [h1], by rw [h2], ?_⟩
  rw [h2, h1]
  simp only [MineField.fidx]
  rw [getD_set_self f.flagged (p.i * f.dim.2 + p.j)
    (! f.flagged.getD (p.i * f.dim.2 + p.j) false) false hlt]
  simp only [Bool.not_not]
  rw [List.set_set]
  rw [set_getD_self f.flagged (p.i * f.dim.2 + p.j) false hlt]

theorem c10_toggle_involutive_witness :
    ((demo22.toggle_flag ⟨0, 0⟩).2 = MoveResult.ok ∧
      (demo22.toggle_flag ⟨0, 0⟩).1 =
        { demo22 with flagged := demo22.flagged.set (demo22.fidx ⟨0, 0⟩) (! demo22.flagged.getD (demo22.fidx ⟨0, 0⟩) false) } ∧
      ((demo22.toggle_flag ⟨0, 0⟩).1.toggle_flag ⟨0, 0⟩).2 =
        MoveResult.ok ∧
      ((demo22.toggle_flag ⟨0, 0⟩).1.toggle_flag ⟨0, 0⟩).1 = demo22) :=
  c10_toggle_involutive demo22 ⟨0, 0⟩ (by decide) (by decide) (by decide)


/-! ## Claim C1 -/

theorem with_n_mines_revealed (h w : Nat) (ixs rng : List Nat) :
    (MineField.with_n_mines h w ixs rng).revealed =
      List.replicate (h * w) false := rfl

theorem with_n_mines_flagged (h w : Nat) (ixs rng : List Nat) :
    (MineField.with_n_mines h w ixs rng).flagged =
      List.replicate (h * w) false := rfl

/-- **C1.**  On a freshly built exact-count field, revealing any in-bounds
cell as the very first move never returns `Lose`: a non-mine proceeds
normally, and a mine triggers `move_mine` (first-move relocation), whose
successful outcome `f2` has the clicked cell mine-free, the same total
mine count, a freshly recomputed neighbour grid, and the reveal continues
on `f2` exactly as on a non-mine cell (`reveal_tail`).  The uniform
randomness of the relocation target is modelled by quantifying over every
possible draw stream `rng`; the retry loop guarantees the chosen square
was mine-free. -/
theorem c1_first_click_safe (height width : Nat) (mine_ixs rng : List Nat)
    (p : Point) (h1 : 0 < height) (h2 : 0 < width)
    (_h3 : mine_ixs.length < height * width) (_h4 : mine_ixs.Nodup)
    (_h5 : ∀ ix ∈ mine_ixs, ix < height * width)
    (hp : (MineField.with_n_mines height width mine_ixs rng).inB p) :
    ((MineField.with_n_mines height width mine_ixs rng).reveal p).2 ≠
      MoveResult.lose ∧
    (∀ f2 : MineField,
      ((MineField.with_n_mines height width mine_ixs
          rng).mark_revealed p).move_mine p = Except.ok f2 →
      f2.mines.getD (f2.fidx p) false = false ∧
      nTrue f2.mines =
        nTrue (MineField.with_n_mines height width mine_ixs rng).mines ∧
      coherent f2 ∧
      ((MineField.with_n_mines height width mine_ixs rng).mines.getD
          ((MineField.with_n_mines height width mine_ixs rng).fidx p)
          false = true →
        (MineField.with_n_mines height width mine_ixs rng).reveal p =
          MineField.reveal_tail
            (MineField.revealGo (height * width + 2)) f2 p)) := by
  have hGood := with_n_mines_GoodState height width mine_ixs rng h1 h2
  have hrev0 : (MineField.with_n_mines height width mine_ixs
      rng).revealed.getD
      ((MineField.with_n_mines height width mine_ixs rng).fidx p)
      false = false := by
    rw [with_n_mines_revealed, getD_replicate]
    split <;> rfl
  have hfl0 : (MineField.with_n_mines height width mine_ixs rng).flagged.getD
      ((MineField.with_n_mines height width mine_ixs rng).fidx p)
      false = false := by
    rw [with_n_mines_flagged, getD_replicate]
    split <;> rfl
  have hview : (MineField.with_n_mines height width mine_ixs
      rng).view_sq p = some SquareView.hidden :=
    (view_sq_hidden_iff _ p).mpr ⟨hp, hrev0, hfl0⟩
  have hunfold : (MineField.with_n_mines height width mine_ixs
      rng).reveal p =
      MineField.mine_check (MineField.revealGo (height * width + 2))
        ((MineField.with_n_mines height width mine_ixs
          rng).mark_revealed p) p := by
    unfold MineField.reveal
    exact revealGo_succ_hidden (height * width + 2) _ p hview
  have hWFm : WF ((MineField.with_n_mines height width mine_ixs
      rng).mark_revealed p) :=
    (mark_revealed_Inv _ p hGood.1).1
  constructor
  · rw [hunfold]
    unfold MineField.mine_check
    by_cases hm : ((MineField.with_n_mines height width mine_ixs
        rng).mark_revealed p).mines.getD
        (((MineField.with_n_mines height width mine_ixs
          rng).mark_revealed p).fidx p) false = true
    · rw [hm]
      simp only [if_pos]
      rw [if_pos (show ((MineField.with_n_mines height width mine_ixs
          rng).mark_revealed p).n_revealed = 1 from rfl)]
      cases hmv : ((MineField.with_n_mines height width mine_ixs
          rng).mark_revealed p).move_mine p with
      | error e => simp
      | ok f2 =>
        show (MineField.reveal_tail (MineField.revealGo
          (height * width + 2)) f2 p).2 ≠ MoveResult.lose
        rcases reveal_tail_result (MineField.revealGo
            (height * width + 2)) f2 p with h | h <;> rw [h] <;> simp
    · rw [Bool.not_eq_true] at hm
      rw [hm]
      simp only [Bool.false_eq_true, if_neg, not_false_eq_true]
      rcases reveal_tail_result (MineField.revealGo (height * width + 2))
        ((MineField.with_n_mines height width mine_ixs
          rng).mark_revealed p) p with h | h <;> rw [h] <;> simp
  · intro f2 hmv
    obtain ⟨t, _, _, _, _, _, _, _, hdim2, _, _⟩ :=
      move_mine_spec _ p f2 hWFm hmv
    have hfidx2 : f2.fidx p =
        ((MineField.with_n_mines height width mine_ixs
          rng).mark_revealed p).fidx p := by
      unfold MineField.fidx
      rw [hdim2]
    refine ⟨?_, ?_, ?_, ?_⟩
    · rw [hfidx2]
      exact move_mine_clears _ p f2 hWFm hmv
    · exact move_mine_nTrue
        ((MineField.with_n_mines height width mine_ixs
          rng).mark_revealed p) p f2 hWFm hmv
    · exact (move_mine_Inv _ p f2 hWFm hmv).2
    · intro hm0
      rw [hunfold]
      unfold MineField.mine_check
      have hm : ((MineField.with_n_mines height width mine_ixs
          rng).mark_revealed p).mines.getD
          (((MineField.with_n_mines height width mine_ixs
            rng).mark_revealed p).fidx p) false = true := hm0
      rw [hm]
      simp only [if_pos]
      rw [if_pos (show ((MineField.with_n_mines height width mine_ixs
          rng).mark_revealed p).n_revealed = 1 from rfl)]
      rw [hmv]

theorem c1_first_click_safe_witness :
    ((MineField.with_n_mines 3 3 [8] [5]).reveal ⟨2, 2⟩).2 ≠
      MoveResult.lose :=
  (c1_first_click_safe 3 3 [8] [5] ⟨2, 2⟩ (by decide) (by decide)
    (by decide) (by decide) (by decide) (by decide)).1


/-! ## Claim C2 -/

theorem game_won_iff (f : MineField) :
    f.game_won = true ↔
      f.n_revealed = f.mines.length - nTrue f.mines := by
  unfold MineField.game_won
  simp

theorem win_check_win_iff2 (f : MineField) :
    (MineField.win_check f).2 = MoveResult.win ↔
      (MineField.win_check f).1.game_won = true := by
  unfold MineField.win_check
  by_cases hw : f.game_won = true
  · rw [if_pos hw]
    simp [game_won_reveal_all_mines, hw]
  · rw [if_neg hw]
    simp [hw]

theorem reveal_tail_win_iff (rv : MineField → Point → MineField × MoveResult)
    (f : MineField) (p : Point) :
    (MineField.reveal_tail rv f p).2 = MoveResult.win ↔
      (MineField.reveal_tail rv f p).1.game_won = true := by
  unfold MineField.reveal_tail
  split <;> exact win_check_win_iff2 _

/-- **C2** (amended).  Forward, for every reveal call on an invariant-holding
field: a `Win` result means that afterwards `n_revealed` equals
`total cells − total mines` and every mine is revealed.  Conversely, for a
call on an in-bounds hidden unflagged cell whose result is neither `Lose`
nor an error, the result is `Win` exactly when the equality holds after
the reveal and flood.  (As stated the claim's "if and only if" also
covered no-op calls — flag-absorbed or chording calls in an already-won
state — where it fails; see the counterexample.) -/
theorem c2_win_condition :
    (∀ (fuel : Nat) (f : MineField) (p : Point), Inv f →
      (MineField.revealGo fuel f p).2 = MoveResult.win →
      (MineField.revealGo fuel f p).1.n_revealed =
        (MineField.revealGo fuel f p).1.mines.length -
          nTrue (MineField.revealGo fuel f p).1.mines ∧
      all_mines_revealed (MineField.revealGo fuel f p).1) ∧
    (∀ (f : MineField) (p : Point),
      f.view_sq p = some SquareView.hidden →
      (f.reveal p).2 ≠ MoveResult.lose →
      (∀ s, (f.reveal p).2 ≠ MoveResult.err s) →
      ((f.reveal p).2 = MoveResult.win ↔
        (f.reveal p).1.n_revealed =
          (f.reveal p).1.mines.length - nTrue (f.reveal p).1.mines)) := by
  constructor
  · intro fuel f p hInv hwin
    obtain ⟨_, _, _, _, _, _, _, h8⟩ := revealGo_spec fuel f p hInv
    obtain ⟨hw, ha⟩ := h8 hwin
    exact ⟨(game_won_iff _).mp hw, ha⟩
  · intro f p hview hnl hne
    have hunfold : f.reveal p =
        MineField.mine_check (MineField.revealGo (f.dim.1 * f.dim.2 + 2))
          (f.mark_revealed p) p := by
      unfold MineField.reveal
      exact revealGo_succ_hidden (f.dim.1 * f.dim.2 + 2) f p hview
    rw [hunfold] at hnl hne ⊢
    unfold MineField.mine_check at hnl hne ⊢
    by_cases hm : (f.mark_revealed p).mines.getD
        ((f.mark_revealed p).fidx p) false = true
    · rw [hm] at hnl hne ⊢
      simp only [if_pos] at hnl hne ⊢
      by_cases hn1 : (f.mark_revealed p).n_revealed = 1
      · rw [if_pos hn1] at hnl hne ⊢
        cases hmv : (f.mark_revealed p).move_mine p with
        | error e =>
          rw [hmv] at hne
          exact absurd rfl (hne e)
        | ok f2 =>
          have := reveal_tail_win_iff
            (MineField.revealGo (f.dim.1 * f.dim.2 + 2)) f2 p
          rw [game_won_iff] at this
          exact this
      · rw [if_neg hn1] at hnl
        exact absurd rfl hnl
    · rw [Bool.not_eq_true] at hm
      rw [hm] at hnl hne ⊢
      simp only [Bool.false_eq_true, if_neg, not_false_eq_true] at hnl hne ⊢
      have := reveal_tail_win_iff
        (MineField.revealGo (f.dim.1 * f.dim.2 + 2)) (f.mark_revealed p) p
      rw [game_won_iff] at this
      exact this

theorem c2_win_condition_witness :
    ((demo22.reveal ⟨0, 1⟩).2 = MoveResult.win ↔
      (demo22.reveal ⟨0, 1⟩).1.n_revealed =
        (demo22.reveal ⟨0, 1⟩).1.mines.length -
          nTrue (demo22.reveal ⟨0, 1⟩).1.mines) :=
  c2_win_condition.2 demo22 ⟨0, 1⟩ (by decide) (by decide)
    (fun s hcon => by
      rw [show (demo22.reveal ⟨0, 1⟩).2 = MoveResult.ok from by decide]
        at hcon
      exact absurd hcon (by simp))

/-- **C2, counterexample.**  In the reachable already-won state
`demo22won`, the in-bounds applied reveal of `(1,1)` is a chord no-op that
returns `Ok`, even though `revealed_count = total cells − total mines`
holds after the call — refuting the claim's "if and only if" as stated. -/
theorem c2_cex : Reachable 2 2 1 demo22won ∧
    demo22won.inB ⟨1, 1⟩ ∧
    (demo22won.reveal ⟨1, 1⟩).2 = MoveResult.ok ∧
    (demo22won.reveal ⟨1, 1⟩).1.n_revealed =
      (demo22won.reveal ⟨1, 1⟩).1.mines.length -
        nTrue (demo22won.reveal ⟨1, 1⟩).1.mines := by
  refine ⟨?_, by decide, by decide, by decide⟩
  exact Reachable.revealStep _ ⟨1, 1⟩ _
    (Reachable.revealStep _ ⟨1, 0⟩ _
      (Reachable.revealStep _ ⟨0, 1⟩ _
        (Reachable.init [0] [] (by decide) (by decide) (by decide)
          (by decide) (by decide) (by decide))))

/-! ## Claim C5 -/

/-- **C5** (amended).  Revealing an already-revealed **non-mine** in-bounds
cell performs exactly the chord of the source: when the flagged-neighbour
count equals the cell's stored neighbour-mine count, every
currently-hidden unflagged neighbour is revealed through the same reveal
procedure (`reveal_neighbors` folding `reveal_step` over the neighbours,
stopping at and returning the first non-`Ok` result); otherwise the call
is a no-op returning `Ok`.  (As stated the claim covered every revealed
cell; it fails on revealed *mines* — reachable after a loss — whose view
is `Mine`, not `Revealed`, and which re-trigger the losing branch; see
the counterexample.) -/
theorem c5_chord_equation (fuel : Nat) (f : MineField) (p : Point) (n : Nat)
    (hview : f.view_sq p = some (SquareView.revealed n)) :
    MineField.revealGo (fuel + 1) f p =
      (if n = ((f.neighbors_iter p).map
            (fun q => if f.flagged.getD (f.fidx q) false then 1 else 0)).sum
        then MineField.reveal_neighbors (MineField.revealGo fuel) f p
        else (f, MoveResult.ok)) := by
  have hn : n = f.neighbors.getD (f.fidx p) 0 :=
    ((view_sq_revealed_iff f p n).mp hview).2.2.2
  rw [revealGo_succ_revealed fuel f p n hview]
  show (if f.neighbors.getD (f.fidx p) 0 =
      ((f.neighbors_iter p).map
        (fun q => if f.flagged.getD (f.fidx q) false then 1 else 0)).sum
    then MineField.reveal_neighbors (MineField.revealGo fuel) f p
    else (f, MoveResult.ok)) = _
  rw [← hn]

theorem c5_chord_equation_witness :
    MineField.revealGo (6 + 1) demo22won ⟨1, 1⟩ =
      (if 1 = ((demo22won.neighbors_iter ⟨1, 1⟩).map
            (fun q => if demo22won.flagged.getD (demo22won.fidx q) false
              then 1 else 0)).sum
        then MineField.reveal_neighbors (MineField.revealGo 6)
          demo22won ⟨1, 1⟩
        else (demo22won, MoveResult.ok)) :=
  c5_chord_equation 6 demo22won ⟨1, 1⟩ 1 (by decide)

/-- **C5, counterexample.**  In the reachable lost state `demo22lost0` the
cell `(0,0)` is in bounds and already revealed, and the chord condition of
the claim holds (no flagged neighbours, stored count 0), so the claim
demands the hidden unflagged neighbour `(0,1)` be revealed; instead the
call takes the `Mine` view path, returns `Lose` again, and leaves `(0,1)`
hidden. -/
theorem c5_cex : Reachable 2 2 1 demo22lost0 ∧
    demo22lost0.inB ⟨0, 0⟩ ∧
    demo22lost0.revealed.getD (demo22lost0.fidx ⟨0, 0⟩) false = true ∧
    demo22lost0.neighbors.getD (demo22lost0.fidx ⟨0, 0⟩) 0 =
      ((demo22lost0.neighbors_iter ⟨0, 0⟩).map
        (fun q => if demo22lost0.flagged.getD (demo22lost0.fidx q) false
          then 1 else 0)).sum ∧
    (demo22lost0.reveal ⟨0, 0⟩).2 = MoveResult.lose ∧
    (demo22lost0.reveal ⟨0, 0⟩).1.revealed.getD
      (demo22lost0.fidx ⟨0, 1⟩) false = false := by
  refine ⟨?_, by decide, by decide, by decide, by decide, by decide⟩
  exact Reachable.revealStep _ ⟨0, 0⟩ _
    (Reachable.revealStep _ ⟨1, 1⟩ _
      (Reachable.init [0] [] (by decide) (by decide) (by decide)
        (by decide) (by decide) (by decide)))


/-! ## Claim C4 -/

theorem revealGo_unrevealed_nonmine_result (fuel : Nat) (f : MineField)
    (q : Point) (hb : f.inB q)
    (hr : f.revealed.getD (f.fidx q) false = false)
    (hm : f.mines.getD (f.fidx q) false = false) :
    (MineField.revealGo (fuel + 1) f q).2 = MoveResult.ok ∨
    (MineField.revealGo (fuel + 1) f q).2 = MoveResult.win := by
  by_cases hfl : f.flagged.getD (f.fidx q) false = true
  · rw [revealGo_succ_flag fuel f q ((view_sq_flag_iff f q).mpr ⟨hb, hr, hfl⟩)]
    left
    rfl
  · rw [Bool.not_eq_true] at hfl
    rw [revealGo_succ_hidden fuel f q
      ((view_sq_hidden_iff f q).mpr ⟨hb, hr, hfl⟩)]
    unfold MineField.mine_check
    have hm2 : (f.mark_revealed q).mines.getD
        ((f.mark_revealed q).fidx q) false = false := hm
    rw [hm2]
    simp only [Bool.false_eq_true, if_neg, not_false_eq_true]
    rcases reveal_tail_result (MineField.revealGo fuel)
        (f.mark_revealed q) q with h | h
    · right; exact h
    · left; exact h

theorem fold_result_ok_or_win (fuel : Nat) :
    ∀ (l : List Point) (f : MineField), Inv f →
      (∀ q ∈ l, f.inB q ∧ f.mines.getD (f.fidx q) false = false) →
      ((l.foldl (MineField.reveal_step (MineField.revealGo (fuel + 1)))
          (f, MoveResult.ok)).2 = MoveResult.ok ∨
        (l.foldl (MineField.reveal_step (MineField.revealGo (fuel + 1)))
          (f, MoveResult.ok)).2 = MoveResult.win) := by
  intro l
  induction l with
  | nil =>
    intro f _ _
    left
    rfl
  | cons q t ih =>
    intro f hInv hall
    rw [List.foldl_cons]
    by_cases hrev : f.revealed.getD (f.fidx q) false = true
    · rw [reveal_step_skip _ f q hrev]
      exact ih f hInv (fun q2 hq2 => hall q2 (by simp [hq2]))
    · rw [Bool.not_eq_true] at hrev
      rw [reveal_step_call _ f q hrev]
      obtain ⟨hbq, hmq⟩ := hall q (by simp)
      obtain ⟨sdim, sInv, _, _, _, snomine, _, _⟩ :=
        revealGo_spec (fuel + 1) f q hInv
      obtain ⟨hmines_eq, _⟩ := snomine hrev hmq
      rcases revealGo_unrevealed_nonmine_result fuel f q hbq hrev hmq
        with hok | hwin
      · have hacc : MineField.revealGo (fuel + 1) f q =
            ((MineField.revealGo (fuel + 1) f q).1, MoveResult.ok) := by
          rw [← hok]
        rw [hacc]
        apply ih (MineField.revealGo (fuel + 1) f q).1 sInv
        intro q2 hq2
        have hfx : (MineField.revealGo (fuel + 1) f q).1.fidx q2 =
            f.fidx q2 := by
          unfold MineField.fidx
          rw [sdim]
        have hib : (MineField.revealGo (fuel + 1) f q).1.inB q2 ↔
            f.inB q2 := by
          unfold MineField.inB
          rw [sdim]
        refine ⟨hib.mpr (hall q2 (by simp [hq2])).1, ?_⟩
        rw [hfx, hmines_eq]
        exact (hall q2 (by simp [hq2])).2
      · rw [foldl_reveal_step_stuck _ t _ (by rw [hwin]; simp)]
        right
        exact hwin

/-- **C4.**  When `reveal` uncovers a hidden, unflagged, non-mine cell
whose stored neighbour count is 0 on an invariant-holding field, the call
runs the flood sweep `reveal_neighbors` over the 8-connected neighbours —
each unrevealed, unflagged neighbour revealed through the same reveal
procedure, the loop stopping at the first non-`Ok` sub-result — followed
by the win test; the sweep's result is always `Ok` or `Win` here (the
neighbours of a 0-count cell hold no mines), and a non-`Ok` sweep result
is the result of the enclosing reveal call. -/
theorem c4_flood_fill (fuel : Nat) (f : MineField) (p : Point)
    (hGood : GoodState f) (hview : f.view_sq p = some SquareView.hidden)
    (hm : f.mines.getD (f.fidx p) false = false)
    (hnn : f.neighbors.getD (f.fidx p) 0 = 0) :
    MineField.revealGo (fuel + 2) f p =
      MineField.win_check
        (MineField.reveal_neighbors (MineField.revealGo (fuel + 1))
          (f.mark_revealed p) p).1 ∧
    ((MineField.reveal_neighbors (MineField.revealGo (fuel + 1))
        (f.mark_revealed p) p).2 = MoveResult.ok ∨
      (MineField.reveal_neighbors (MineField.revealGo (fuel + 1))
        (f.mark_revealed p) p).2 = MoveResult.win) ∧
    ((MineField.reveal_neighbors (MineField.revealGo (fuel + 1))
        (f.mark_revealed p) p).2 ≠ MoveResult.ok →
      (MineField.revealGo (fuel + 2) f p).2 =
        (MineField.reveal_neighbors (MineField.revealGo (fuel + 1))
          (f.mark_revealed p) p).2) := by
  obtain ⟨hb, hrv, hfl⟩ := (view_sq_hidden_iff f p).mp hview
  have hmInv : Inv (f.mark_revealed p) := mark_revealed_Inv f p hGood.1
  have hmb : (f.mark_revealed p).inB p := hb
  have hnn2 : (f.mark_revealed p).neighbors.getD
      ((f.mark_revealed p).fidx p) 0 = 0 := hnn
  have hunf : MineField.revealGo (fuel + 2) f p =
      MineField.reveal_tail (MineField.revealGo (fuel + 1))
        (f.mark_revealed p) p := by
    rw [show fuel + 2 = (fuel + 1) + 1 from rfl]
    rw [revealGo_succ_hidden (fuel + 1) f p hview]
    unfold MineField.mine_check
    have hm2 : (f.mark_revealed p).mines.getD
        ((f.mark_revealed p).fidx p) false = false := hm
    rw [hm2]
    simp only [Bool.false_eq_true, if_neg, not_false_eq_true]
  have htail : MineField.reveal_tail (MineField.revealGo (fuel + 1))
      (f.mark_revealed p) p =
      MineField.win_check
        (MineField.reveal_neighbors (MineField.revealGo (fuel + 1))
          (f.mark_revealed p) p).1 := by
    unfold MineField.reveal_tail
    rw [if_pos hnn2]
  have heq := hunf.trans htail
  have htargets :=
    flood_targets_not_mine (f.mark_revealed p) p hmInv hmb hnn2
  have hres : (MineField.reveal_neighbors (MineField.revealGo (fuel + 1))
      (f.mark_revealed p) p).2 = MoveResult.ok ∨
      (MineField.reveal_neighbors (MineField.revealGo (fuel + 1))
        (f.mark_revealed p) p).2 = MoveResult.win := by
    unfold MineField.reveal_neighbors
    exact fold_result_ok_or_win fuel ((f.mark_revealed p).neighbors_iter p)
      (f.mark_revealed p) hmInv htargets
  refine ⟨heq, hres, ?_⟩
  intro hne
  rcases hres with hok | hwin
  · exact absurd hok hne
  · obtain ⟨_, _, _, _, _, _, g7, _⟩ :=
      fold_spec (MineField.revealGo (fuel + 1)) (revealGo_spec (fuel + 1))
        ((f.mark_revealed p).neighbors_iter p) (f.mark_revealed p) hmInv
    have hgw : (MineField.reveal_neighbors (MineField.revealGo (fuel + 1))
        (f.mark_revealed p) p).1.game_won = true := (g7 hwin).1
    rw [heq, hwin]
    unfold MineField.win_check
    rw [if_pos hgw]

theorem c4_flood_fill_witness :
    (MineField.revealGo (5 + 2) (MineField.with_n_mines 2 2 [] []) ⟨0, 0⟩ =
      MineField.win_check
        (MineField.reveal_neighbors (MineField.revealGo (5 + 1))
          ((MineField.with_n_mines 2 2 [] []).mark_revealed ⟨0, 0⟩)
          ⟨0, 0⟩).1 ∧
    ((MineField.reveal_neighbors (MineField.revealGo (5 + 1))
        ((MineField.with_n_mines 2 2 [] []).mark_revealed ⟨0, 0⟩)
        ⟨0, 0⟩).2 = MoveResult.ok ∨
      (MineField.reveal_neighbors (MineField.revealGo (5 + 1))
        ((MineField.with_n_mines 2 2 [] []).mark_revealed ⟨0, 0⟩)
        ⟨0, 0⟩).2 = MoveResult.win) ∧
    ((MineField.reveal_neighbors (MineField.revealGo (5 + 1))
        ((MineField.with_n_mines 2 2 [] []).mark_revealed ⟨0, 0⟩)
        ⟨0, 0⟩).2 ≠ MoveResult.ok →
      (MineField.revealGo (5 + 2)
        (MineField.with_n_mines 2 2 [] []) ⟨0, 0⟩).2 =
        (MineField.reveal_neighbors (MineField.revealGo (5 + 1))
          ((MineField.with_n_mines 2 2 [] []).mark_revealed ⟨0, 0⟩)
          ⟨0, 0⟩).2)) :=
  c4_flood_fill 5 (MineField.with_n_mines 2 2 [] []) ⟨0, 0⟩ (by decide)
    (by decide) (by decide) (by decide)

end Mines
